import Mathlib

/-!
Shallow embedding of the document-analyzer core of
`src/backend/app/services/yaml_parser.py` (plus the `valid` flag logic of
`src/backend/app/main.py`), together with proofs settling the claims about it.

Python strings are modelled as `List Char`.  The third-party YAML decoder
(`ruamel.yaml`) and the Python `ast` standard-library parser are external to
the repository; they are modelled as explicit oracle parameters
(`parse : Str → Except Str Yaml`, `astParse : Str → Option (List AstAssign)`),
and concrete fixtures faithful to their documented behaviour on the specific
inputs used are supplied for witnesses and counterexamples.

The built-in Python string operations (`str.strip`, `str.splitlines`,
`str.lower`) are modelled on their ASCII fragment: whitespace is
`' ', '\t', '\n', '\r'` and line boundaries are `"\n"`, `"\r\n"`, `"\r"`;
exotic Unicode whitespace and control-character line boundaries are outside
the model, and no theorem below depends on them.
-/

/-- Python strings, modelled as lists of characters. -/
abbrev Str := List Char

/-- Coerce a Lean string literal into the model's string type. -/
def chars (s : String) : Str := s.toList

/-- ASCII fragment of Python's whitespace test used by `str.strip`. -/
def pyIsWs (c : Char) : Bool := c == ' ' || c == '\t' || c == '\n' || c == '\r'

/-- Model of Python `str.strip()` (ASCII whitespace fragment). -/
def pyStrip (s : Str) : Str := ((s.dropWhile pyIsWs).reverse.dropWhile pyIsWs).reverse

/-- Accumulator loop for `pySplitlines`; `acc` holds the current line
reversed; a `\r` followed by `\n` is consumed as a single boundary. -/
def splitlinesGo : Str → Str → List Str
  | [], acc => if acc.isEmpty then [] else [acc.reverse]
  | c :: rest, acc =>
    if c == '\n' then acc.reverse :: splitlinesGo rest []
    else if c == '\r' then
      match rest with
      | r1 :: rest2 =>
        if r1 == '\n' then acc.reverse :: splitlinesGo rest2 []
        else acc.reverse :: splitlinesGo (r1 :: rest2) []
      | [] => acc.reverse :: splitlinesGo [] []
    else splitlinesGo rest (c :: acc)

/-- Model of Python `str.splitlines()` on the `\n`, `\r\n`, `\r` boundaries. -/
def pySplitlines (s : Str) : List Str := splitlinesGo s []

/-- Model of Python `str.lower()` (ASCII fragment). -/
def pyLower (s : Str) : Str := s.map Char.toLower

/-- Python dynamic-typing failures that the analyzer's code paths can raise. -/
inductive PyErr where
  | typeError
  | attributeError
  | keyError
  | indexError
deriving DecidableEq, Repr

/-- Decoded YAML values, as returned by the `ruamel.yaml` round-trip loader.
Scalar floats are represented by the rational they denote; `yother` stands for
the remaining opaque scalar types the loader can produce (e.g. timestamps),
which are truthy and support neither `in` nor `.get`. -/
inductive Yaml where
  | ynull
  | ybool (b : Bool)
  | yint (n : Int)
  | yfloat (q : ℚ)
  | ystr (s : Str)
  | ylist (items : List Yaml)
  | ydict (entries : List (Yaml × Yaml))
  | yother

/-- Python truthiness of a decoded value. -/
def truthy : Yaml → Bool
  | .ynull => false
  | .ybool b => b
  | .yint n => n != 0
  | .yfloat q => q != 0
  | .ystr s => !s.isEmpty
  | .ylist xs => !xs.isEmpty
  | .ydict kvs => !kvs.isEmpty
  | .yother => true

/-- The `value or {}` idiom: falsy values are replaced by an empty mapping. -/
def orEmptyDict (v : Yaml) : Yaml := if truthy v then v else .ydict []

/-- Whether a YAML mapping key equals the Python string `k`. -/
def isStrKey (key : Yaml) (k : Str) : Bool :=
  match key with
  | .ystr s => s == k
  | _ => false

/-- First value bound to string key `k` in a mapping's entry list. -/
def dictFind (entries : List (Yaml × Yaml)) (k : Str) : Option Yaml :=
  match entries with
  | [] => none
  | (key, v) :: rest => if isStrKey key k then some v else dictFind rest k

/-- Contiguous-substring test (Python `in` on strings). -/
def isSubstr (k : Str) : Str → Bool
  | [] => k.isEmpty
  | c :: rest => List.isPrefixOf k (c :: rest) || isSubstr k rest

/-- Python `k in v` for a string `k`: key lookup on mappings, element equality
on sequences, substring test on strings, `TypeError` on other values. -/
def pyContains (k : Str) (v : Yaml) : Except PyErr Bool :=
  match v with
  | .ydict kvs => .ok (kvs.any (fun kv => isStrKey kv.1 k))
  | .ylist xs => .ok (xs.any (fun x => isStrKey x k))
  | .ystr s => .ok (isSubstr k s)
  | _ => .error .typeError

/-- Python `v.get(k, default)`: only mappings have `.get`. -/
def pyGet (v : Yaml) (k : Str) (default : Yaml) : Except PyErr Yaml :=
  match v with
  | .ydict kvs => .ok ((dictFind kvs k).getD default)
  | _ => .error .attributeError

/-- Python `v[k]` for a string key `k`. -/
def pySubscript (v : Yaml) (k : Str) : Except PyErr Yaml :=
  match v with
  | .ydict kvs =>
    match dictFind kvs k with
    | some x => .ok x
    | none => .error .keyError
  | _ => .error .typeError

/-- `isinstance(v, dict)`. -/
def isDict : Yaml → Bool
  | .ydict _ => true
  | _ => false

/-- `isinstance(v, str)`. -/
def isStr : Yaml → Bool
  | .ystr _ => true
  | _ => false

/-- The `BLOCK_TYPES` vocabulary tuple, in source order. -/
def BLOCK_TYPES : List Str :=
  [chars "question", chars "code", chars "objects", chars "features",
   chars "auto terms", chars "template", chars "attachment", chars "attachments",
   chars "table", chars "translations", chars "include",
   chars "default screen parts", chars "metadata", chars "modules",
   chars "imports", chars "sections", chars "interview help", chars "def",
   chars "default validation messages", chars "machine learning storage",
   chars "initial", chars "event", chars "comment", chars "variable name",
   chars "data", chars "data from code", chars "reset", chars "on change",
   chars "image sets", chars "images", chars "order"]

/-- The `LANGUAGE_MAP` dict literal, in source order (its duplicated
`metadata` and `event` entries bind the same value both times, so first-match
lookup on this list agrees with the Python dict). -/
def LANGUAGE_MAP : List (Str × Str) :=
  [(chars "metadata", chars "yaml"), (chars "objects", chars "yaml"),
   (chars "question", chars "yaml"), (chars "code", chars "python"),
   (chars "event", chars "yaml"), (chars "features", chars "yaml"),
   (chars "auto terms", chars "yaml"), (chars "template", chars "yaml"),
   (chars "attachment", chars "yaml"), (chars "attachments", chars "yaml"),
   (chars "table", chars "yaml"), (chars "translations", chars "yaml"),
   (chars "include", chars "yaml"), (chars "default screen parts", chars "yaml"),
   (chars "metadata", chars "yaml"), (chars "modules", chars "yaml"),
   (chars "imports", chars "yaml"), (chars "sections", chars "yaml"),
   (chars "interview help", chars "yaml"), (chars "def", chars "markdown"),
   (chars "default validation messages", chars "yaml"),
   (chars "machine learning storage", chars "yaml"),
   (chars "initial", chars "yaml"), (chars "event", chars "yaml"),
   (chars "comment", chars "yaml"), (chars "data", chars "yaml"),
   (chars "data from code", chars "yaml"), (chars "reset", chars "yaml"),
   (chars "on change", chars "yaml"), (chars "image sets", chars "yaml"),
   (chars "images", chars "yaml"), (chars "order", chars "yaml")]

/-- The `DATATYPE_MAP` dict literal, in source order. -/
def DATATYPE_MAP : List (Str × Str) :=
  [(chars "text", chars "str"), (chars "area", chars "str"),
   (chars "password", chars "str"), (chars "email", chars "str"),
   (chars "date", chars "date"), (chars "datetime", chars "datetime"),
   (chars "time", chars "time"), (chars "integer", chars "int"),
   (chars "number", chars "float"), (chars "currency", chars "float"),
   (chars "boolean", chars "bool"), (chars "yesno", chars "bool"),
   (chars "noyes", chars "bool"), (chars "range", chars "float"),
   (chars "object", chars "dict"), (chars "choices", chars "list"),
   (chars "dropdown", chars "Any"), (chars "multiselect", chars "list"),
   (chars "combobox", chars "list"), (chars "file", chars "str"),
   (chars "files", chars "list")]

/-- First-match lookup in a string-keyed association list (Python dict `.get`). -/
def assocFind (m : List (Str × Str)) (k : Str) : Option Str :=
  match m with
  | [] => none
  | (key, v) :: rest => if key == k then some v else assocFind rest k

/-- Embeds `_coerce_bool`. -/
def _coerce_bool (v : Yaml) : Bool :=
  match v with
  | .ybool b => b
  | .ystr s =>
    let normalized := pyLower (pyStrip s)
    normalized == chars "true" || normalized == chars "yes" ||
      normalized == chars "1" || normalized == chars "on"
  | .yint n => n != 0
  | .yfloat q => q != 0
  | _ => false

/-- Loop of `_split_blocks`: scan lines, flushing the buffer at `---` lines. -/
def splitCore : List Str → List Str → List Str
  | [], buffer =>
    let tail := pyStrip (List.intercalate ['\n'] buffer)
    if tail.isEmpty then [] else [tail]
  | line :: rest, buffer =>
    if pyStrip line == chars "---" then
      let part := pyStrip (List.intercalate ['\n'] buffer)
      if part.isEmpty then splitCore rest [] else part :: splitCore rest []
    else splitCore rest (buffer ++ [line])

/-- Embeds `_split_blocks`. -/
def _split_blocks (document : Str) : List Str :=
  let cleaned := pyStrip document
  if cleaned.isEmpty then [] else splitCore (pySplitlines cleaned) []

/-- Candidate loop of `_guess_block_type`. -/
def guessGo (cands : List Str) (data : Yaml) : Except PyErr (Option Str) :=
  match cands with
  | [] => .ok none
  | c :: rest => do
    let b ← pyContains c data
    if b then pure (some c) else guessGo rest data

/-- Embeds `_guess_block_type`. -/
def _guess_block_type (data : Yaml) : Except PyErr Str := do
  match ← guessGo BLOCK_TYPES data with
  | some t => pure t
  | none => do
    let b ← pyContains (chars "question") data
    if b then pure (chars "question") else pure (chars "code")

/-- Whitespace class of the regex `\s` escapes used below (ASCII fragment). -/
def reWs (c : Char) : Bool := pyIsWs c

/-- Case-insensitive literal-prefix match;
returns the remainder after the prefix. -/
def stripCiPrefix : Str → Str → Option Str
  | [], s => some s
  | _ :: _, [] => none
  | p :: ps, c :: cs =>
    if Char.toLower c == Char.toLower p then stripCiPrefix ps cs else none

/-- Attempt of the regex `#+\s*interview\s+order\s*#+` (with `re.IGNORECASE`)
anchored at the start of `s`.  Maximal munch is equivalent to the regex's
backtracking here because `#` matches neither `\s` nor a letter. -/
def matchIOCHere (s : Str) : Bool :=
  match s with
  | '#' :: rest =>
    let r1 := (rest.dropWhile (· == '#')).dropWhile reWs
    match stripCiPrefix (chars "interview") r1 with
    | none => false
    | some r2 =>
      match r2 with
      | c :: _ =>
        if reWs c then
          match stripCiPrefix (chars "order") (r2.dropWhile reWs) with
          | none => false
          | some r3 =>
            match r3.dropWhile reWs with
            | '#' :: _ => true
            | _ => false
        else false
      | [] => false
  | _ => false

/-- `re.search` of the interview-order comment pattern: a match may start at
any position. -/
def hasIOComment (s : Str) : Bool := s.tails.any matchIOCHere

/-- Digit string of a natural number (Python `f'{n}'` for an `int >= 0`). -/
def natDigits (n : Nat) : Str := Nat.toDigits 10 n

/-- Python `str()` of a decoded value.  Container and float representations are
abbreviated placeholders: they feed only the display-label heuristics of
`_label_for_block`, and no theorem below depends on label text. -/
def pyStrOf : Yaml → Str
  | .ynull => chars "None"
  | .ybool true => chars "True"
  | .ybool false => chars "False"
  | .yint n => if n < 0 then '-' :: natDigits n.natAbs else natDigits n.natAbs
  | .yfloat _ => chars "<float>"
  | .ystr s => s
  | .ylist _ => chars "<list>"
  | .ydict _ => chars "<dict>"
  | .yother => chars "<object>"

/-- The code-block reclassification checks of `_label_for_block` (id
name heuristics and the interview-order comment pattern); `some r` models an
early `return r` from that section. -/
def codeLabelCheck (block_type : Str) (data : Yaml) (raw_chunk : Str) :
    Except PyErr (Option (Option Str)) := do
  if block_type == chars "code" then
    let block_id ← pyGet data (chars "id") (.ystr [])
    let code_content ← pyGet data (chars "code") (.ystr [])
    let id_normalized :=
      if truthy block_id then pyStrip (pyLower (pyStrOf block_id)) else []
    if id_normalized == chars "interview order" ||
        id_normalized == chars "interview_order" ||
        isSubstr (chars "interview_order") id_normalized ||
        id_normalized == chars "main_order" ||
        isSubstr (chars "main_order") id_normalized then
      pure (some (some (chars "Interview Order")))
    else if hasIOComment raw_chunk then
      pure (some (some (chars "Interview Order")))
    else
      match code_content with
      | .ystr cc =>
        if hasIOComment cc then pure (some (some (chars "Interview Order")))
        else pure none
      | _ => pure none
  else pure none

/-- Embeds `_label_for_block`.  Its result feeds only the `label` field, but
its `AttributeError`/`IndexError` paths (non-mapping `metadata`/`attachment`
payloads, empty-string `question` values) are modelled faithfully because they
determine when `analyze_blocks` raises. -/
def _label_for_block (block_type : Str) (data : Yaml) (raw_chunk : Str) :
    Except PyErr (Option Str) := do
  let io ← pyGet data (chars "interview_order") .ynull
  if isDict io then
    pure (some (chars "Interview Order"))
  else do
    match ← codeLabelCheck block_type data raw_chunk with
    | some r => pure r
    | none =>
      if block_type == chars "metadata" then do
        let mval ← pyGet data (chars "metadata") .ynull
        let meta := orEmptyDict mval
        let title ← pyGet meta (chars "title") .ynull
        if truthy title then pure (some (pyStrOf title)) else pure none
      else if block_type == chars "question" then do
        let question ← pyGet data (chars "question") .ynull
        match question with
        | .ystr q =>
          match pySplitlines q with
          | [] => .error .indexError
          | l :: _ => pure (some l)
        | _ => pure none
      else if block_type == chars "code" then do
        let code ← pyGet data (chars "code") .ynull
        match code with
        | .ystr c =>
          if c.isEmpty then pure none
          else
            match pySplitlines c with
            | [] => pure none
            | l :: _ => pure (some (l.take 24))
        | _ => pure none
      else if block_type == chars "attachment" then do
        let pval ← pyGet data (chars "attachment") .ynull
        let payload := orEmptyDict pval
        let name ← pyGet payload (chars "name") .ynull
        if truthy name then pure (some (pyStrOf name)) else pure none
      else if block_type == chars "event" then do
        let ev ← pyGet data (chars "event") .ynull
        if truthy ev then pure (some (pyStrOf ev)) else pure none
      else
        pure none

/-- Embeds `_order_items_from_code`. -/
def _order_items_from_code (code : Option Str) : List Str :=
  match code with
  | none => []
  | some c =>
    if c.isEmpty then []
    else
      ((pySplitlines c).filter
          (fun line => !(pyStrip line).isEmpty &&
            !(match pyStrip line with
              | '#' :: _ => true
              | _ => false))).map pyStrip

/-- Failures of `analyze_blocks`: the `ValueError` wrapping a YAML syntax
error (carrying the failing segment's index and the decoder's diagnostic), or
a dynamic typing error escaping from classification/labelling. -/
inductive AnalyzeErr where
  | decodeError (position : Nat) (diag : Str)
  | pyErr (e : PyErr)
deriving DecidableEq, Repr

/-- The per-block analysis record. -/
structure BlockAnalysis where
  id : Str
  type : Str
  label : Option Str
  language : Str
  position : Nat
  order_items : List Str
  is_mandatory : Bool
deriving DecidableEq, Repr

/-- Body of the `analyze_blocks` loop for one segment. -/
def analyzeChunk (parse : Str → Except Str Yaml) (position : Nat) (chunk : Str) :
    Except AnalyzeErr BlockAnalysis :=
  match parse chunk with
  | .error diag => .error (.decodeError position diag)
  | .ok v =>
    let data := orEmptyDict v
    match _guess_block_type data with
    | .error e => .error (.pyErr e)
    | .ok block_type =>
      match _label_for_block block_type data chunk with
      | .error e => .error (.pyErr e)
      | .ok label =>
        match pyGet data (chars "interview_order") .ynull with
        | .error e => .error (.pyErr e)
        | .ok interview_order_payload =>
          if isDict interview_order_payload then
            match pyGet interview_order_payload (chars "code") .ynull with
            | .error e => .error (.pyErr e)
            | .ok code_value =>
              let code : Option Str :=
                match code_value with
                | .ystr c => some c
                | _ => none
              match pyGet interview_order_payload (chars "mandatory") .ynull with
              | .error e => .error (.pyErr e)
              | .ok mv =>
                .ok
                  { id := block_type ++ '-' :: natDigits position
                    type := block_type
                    label := label
                    language := (assocFind LANGUAGE_MAP block_type).getD (chars "yaml")
                    position := position
                    order_items := _order_items_from_code code
                    is_mandatory := _coerce_bool mv }
          else
            match pyGet data (chars "mandatory") .ynull with
            | .error e => .error (.pyErr e)
            | .ok mv =>
              .ok
                { id := block_type ++ '-' :: natDigits position
                  type := block_type
                  label := label
                  language := (assocFind LANGUAGE_MAP block_type).getD (chars "yaml")
                  position := position
                  order_items := []
                  is_mandatory := _coerce_bool mv }

/-- Indexed loop of `analyze_blocks` over the split segments. -/
def analyzeGo (parse : Str → Except Str Yaml) (position : Nat) :
    List Str → Except AnalyzeErr (List BlockAnalysis)
  | [] => .ok []
  | chunk :: rest => do
    let a ← analyzeChunk parse position chunk
    let tail ← analyzeGo parse (position + 1) rest
    pure (a :: tail)

/-- Embeds `analyze_blocks`, parameterised by the YAML decoder oracle. -/
def analyze_blocks (parse : Str → Except Str Yaml) (document : Str) :
    Except AnalyzeErr (List BlockAnalysis) :=
  analyzeGo parse 0 (_split_blocks document)

/-- Issue text for a YAML segment that failed to decode during analysis
(`f'Failed to parse YAML segment at index {position}: {exc}'`). -/
def parseFailMsg (position : Nat) (diag : Str) : Str :=
  chars "Failed to parse YAML segment at index " ++ natDigits position ++
    chars ": " ++ diag

/-- Issue text for an out-of-vocabulary block type
(`f'Unsupported block type "{block.type}" at position {block.position}.'`). -/
def unsupportedMsg (b : BlockAnalysis) : Str :=
  chars "Unsupported block type \"" ++ b.type ++ chars "\" at position " ++
    natDigits b.position ++ chars "."

/-- Issue text for a segment failing to re-decode in the mandatory-count loop. -/
def invalidYamlMsg (diag : Str) : Str := chars "Invalid YAML block: " ++ diag

/-- The duplicate-mandatory issue text. -/
def dupMandatoryMsg : Str :=
  chars "Only one mandatory interview_order block is allowed."

/-- Second loop of `validate_document`: re-decode each segment and count
mandatory `interview_order` declarations, carrying the `seen_mandatory` flag. -/
def mandLoop (parse : Str → Except Str Yaml) :
    List Str → Bool → Except PyErr (List Str)
  | [], _ => .ok []
  | chunk :: rest, seen =>
    match parse chunk with
    | .error diag => do
      let more ← mandLoop parse rest seen
      .ok (invalidYamlMsg diag :: more)
    | .ok v =>
      let data := orEmptyDict v
      match pyContains (chars "interview_order") data with
      | .error e => .error e
      | .ok hasIO =>
        if hasIO then
          match pySubscript data (chars "interview_order") with
          | .error e => .error e
          | .ok ioval =>
            let metadata := orEmptyDict ioval
            match pyGet metadata (chars "mandatory") .ynull with
            | .error e => .error e
            | .ok mandatory =>
              let mandatory_flag := _coerce_bool mandatory
              do
                let more ← mandLoop parse rest (seen || mandatory_flag)
                if mandatory_flag && seen then .ok (dupMandatoryMsg :: more)
                else .ok more
        else mandLoop parse rest seen

/-- Embeds `validate_document`.  The optional third-party `dayamlchecker`
collaborator is modelled as unavailable (the `importlib` failure path, the
common deployment), so it contributes no issues.  Only the `ValueError` from a
YAML syntax failure is caught around `analyze_blocks`; dynamic typing errors
propagate, which is why the result is `Except`-valued. -/
def validate_document (parse : Str → Except Str Yaml) (document : Str) :
    Except PyErr (List Str) :=
  match analyze_blocks parse document with
  | .error (.decodeError pos diag) => .ok [parseFailMsg pos diag]
  | .error (.pyErr e) => .error e
  | .ok blocks =>
    let unsupported := blocks.filterMap (fun b =>
      if BLOCK_TYPES.contains b.type then none else some (unsupportedMsg b))
    match mandLoop parse (_split_blocks document) false with
    | .error e => .error e
    | .ok dupIssues => .ok (unsupported ++ dupIssues)

/-- The `valid` flag computed by the `/validate` route of `main.py`
(`valid = len(issues) == 0`). -/
def validate_yaml_valid (parse : Str → Except Str Yaml) (document : Str) :
    Except PyErr Bool :=
  match validate_document parse document with
  | .error e => .error e
  | .ok issues => .ok issues.isEmpty

/-- Embeds `iter_blocks`: decode each segment, normalising falsy results to an
empty mapping and silently skipping segments whose text fails to decode. -/
def iter_blocks (parse : Str → Except Str Yaml) (document : Str) : List Yaml :=
  (_split_blocks document).filterMap (fun chunk =>
    match parse chunk with
    | .error _ => none
    | .ok v => some (orEmptyDict v))

/-- Python constant kinds distinguished by `type(node.value).__name__`. -/
inductive ConstKind where
  | intK | strK | boolK | noneK | floatK | complexK | bytesK | ellipsisK
deriving DecidableEq, Repr

/-- Shape of the right-hand side of an assignment, as far as
`_get_type_from_ast_node` inspects it. -/
inductive AstExprShape where
  | constE (k : ConstKind)
  | listE | listCompE | dictE | dictCompE | tupleE | setE
  | otherE
deriving DecidableEq, Repr

/-- An assignment target: a plain name, or anything else (skipped). -/
inductive AstTarget where
  | nameT (id : Str)
  | otherT
deriving DecidableEq, Repr

/-- One `ast.Assign` node as seen by `_extract_variables_from_code`.  The
oracle returns all `Assign` nodes of the parsed module in `ast.walk` order. -/
structure AstAssign where
  targets : List AstTarget
  value : AstExprShape
deriving DecidableEq, Repr

/-- `type(value).__name__` for each constant kind. -/
def constTypeName : ConstKind → Str
  | .intK => chars "int"
  | .strK => chars "str"
  | .boolK => chars "bool"
  | .noneK => chars "NoneType"
  | .floatK => chars "float"
  | .complexK => chars "complex"
  | .bytesK => chars "bytes"
  | .ellipsisK => chars "ellipsis"

/-- Embeds `_get_type_from_ast_node`.  The `ast.Num`/`ast.Str`/
`ast.NameConstant` branches of the source are unreachable on Python >= 3.8
because the `ast.Constant` branch precedes them, so they do not appear. -/
def _get_type_from_ast_node (e : AstExprShape) : Str :=
  match e with
  | .constE k => constTypeName k
  | .listE => chars "list"
  | .listCompE => chars "list"
  | .dictE => chars "dict"
  | .dictCompE => chars "dict"
  | .tupleE => chars "tuple"
  | .setE => chars "set"
  | .otherE => chars "Any"

/-- Python dict assignment `m[k] = v`: overwrite in place, else append. -/
def dictSet (m : List (Str × Str)) (k v : Str) : List (Str × Str) :=
  match m with
  | [] => [(k, v)]
  | (k', v') :: rest => if k' == k then (k, v) :: rest else (k', v') :: dictSet rest k v

/-- Embeds `_extract_variables_from_code`, parameterised by the `ast.parse`
oracle (`none` models a `SyntaxError`, which the source swallows). -/
def _extract_variables_from_code (astParse : Str → Option (List AstAssign))
    (code : Str) : List (Str × Str) :=
  match astParse code with
  | none => []
  | some assigns =>
    assigns.foldl (fun vars a =>
      let var_type := _get_type_from_ast_node a.value
      a.targets.foldl (fun vars tgt =>
        match tgt with
        | .nameT id => dictSet vars id var_type
        | .otherT => vars) vars) []

/-- Pass 1 of `extract_variables`: code-block assignments (lower priority). -/
def varsPass1 (astParse : Str → Option (List AstAssign)) :
    List Yaml → List (Str × Str) → Except PyErr (List (Str × Str))
  | [], vars => .ok vars
  | block :: rest, vars =>
    match pyContains (chars "code") block with
    | .error e => .error e
    | .ok hasCode =>
      if hasCode then
        match pySubscript block (chars "code") with
        | .error e => .error e
        | .ok cv =>
          match cv with
          | .ystr code =>
            varsPass1 astParse rest
              ((_extract_variables_from_code astParse code).foldl
                (fun m p => dictSet m p.1 p.2) vars)
          | _ => varsPass1 astParse rest vars
      else varsPass1 astParse rest vars

/-- Mapped semantic type of one field entry (`DATATYPE_MAP.get(datatype, 'Any')`
with `datatype = field.get('datatype', 'text')`).  A sequence- or
mapping-valued `datatype` is unhashable in Python, so the dictionary lookup
raises an uncaught `TypeError`. -/
def fieldMappedType (kvs : List (Yaml × Yaml)) : Except PyErr Str :=
  match (dictFind kvs (chars "datatype")).getD (.ystr (chars "text")) with
  | .ystr d => .ok ((assocFind DATATYPE_MAP d).getD (chars "Any"))
  | .ylist _ => .error .typeError
  | .ydict _ => .error .typeError
  | _ => .ok (chars "Any")

/-- Declaration contributed by one field entry of pass 2: an entry counts
only if it is a non-empty mapping whose first key's value is a string (that
value is the variable name, `field[next(iter(field))]`); the declared type is
its mapped `datatype`, whose lookup can raise. -/
def fieldDecl (f : Yaml) : Except PyErr (Option (Str × Str)) :=
  match f with
  | .ydict fkvs =>
    match fkvs with
    | (_, .ystr variable_name) :: _ =>
      match fieldMappedType fkvs with
      | .error e => .error e
      | .ok ty => .ok (some (variable_name, ty))
    | _ => .ok none
  | _ => .ok none

/-- Inner loop of pass 2 over one block's field entries. -/
def fieldsFold : List Yaml → List (Str × Str) → Except PyErr (List (Str × Str))
  | [], vars => .ok vars
  | field :: rest, vars =>
    match fieldDecl field with
    | .error e => .error e
    | .ok (some (name, ty)) => fieldsFold rest (dictSet vars name ty)
    | .ok none => fieldsFold rest vars

/-- Pass 2 of `extract_variables`: declarative field lists (higher priority). -/
def varsPass2 : List Yaml → List (Str × Str) → Except PyErr (List (Str × Str))
  | [], vars => .ok vars
  | block :: rest, vars =>
    match pyContains (chars "fields") block with
    | .error e => .error e
    | .ok hasFields =>
      if hasFields then
        match pySubscript block (chars "fields") with
        | .error e => .error e
        | .ok fv =>
          match fv with
          | .ylist fields =>
            match fieldsFold fields vars with
            | .error e => .error e
            | .ok vars2 => varsPass2 rest vars2
          | _ => varsPass2 rest vars
      else varsPass2 rest vars

/-- One entry of the `extract_variables` result. -/
structure VarInfo where
  name : Str
  type : Str
deriving DecidableEq, Repr

/-- Strict lexicographic comparison on the model's strings (Python `<`). -/
def strLt : Str → Str → Bool
  | [], [] => false
  | [], _ :: _ => true
  | _ :: _, [] => false
  | a :: as_, b :: bs => if a < b then true else if b < a then false else strLt as_ bs

/-- Lexicographic `<=` on the model's strings. -/
def strLe (a b : Str) : Bool := !strLt b a

/-- Ordered insertion by variable name (building block of Python `sorted` with
`key=lambda v: v['name']`; names are unique here, so any correct sort agrees). -/
def insertVar (v : VarInfo) : List VarInfo → List VarInfo
  | [] => [v]
  | w :: ws => if strLe v.name w.name then v :: w :: ws else w :: insertVar v ws

/-- Sort variable records ascending by name. -/
def sortVars (l : List VarInfo) : List VarInfo := l.foldr insertVar []

/-- Embeds `extract_variables`, parameterised by the YAML and `ast` oracles. -/
def extract_variables (parse : Str → Except Str Yaml)
    (astParse : Str → Option (List AstAssign)) (document : Str) :
    Except PyErr (List VarInfo) :=
  let all_blocks := iter_blocks parse document
  match varsPass1 astParse all_blocks [] with
  | .error e => .error e
  | .ok vars1 =>
    match varsPass2 all_blocks vars1 with
    | .error e => .error e
    | .ok vars2 => .ok (sortVars (vars2.map (fun p => ⟨p.1, p.2⟩)))

/-- ASCII fragment of the regex class `\w`. -/
def isWordChar (c : Char) : Bool := c.isAlphanum || c == '_'

/-- Continuation of a dotted path after at least one word character:
`(\w|\.\w+)*` with no two adjacent dots and no trailing dot. -/
def dottedTail : Str → Bool
  | [] => true
  | c :: r =>
    if c == '.' then
      match r with
      | [] => false
      | c' :: r' => isWordChar c' && dottedTail r'
    else isWordChar c && dottedTail r

/-- Whole-string match of `\w+(?:\.\w+)*`. -/
def isDottedB : Str → Bool
  | [] => false
  | c :: r => isWordChar c && dottedTail r

/-- The bracketed index letters accepted by the iterator pattern. -/
def isIterChar (x : Char) : Bool := x == 'i' || x == 'j' || x == 'k' || x == 'n'

/-- Tail of the iterator pattern after the closing bracket:
`(?:\.(\w+(?:\.\w+)*))?$`. -/
def matchIterSuffix (p t : Str) : Option Str :=
  match t with
  | [] => some p
  | c :: d => if c == '.' && isDottedB d then some p else none

/-- Bracket segment of the iterator pattern: `\[([ijkn])\]` followed by the
optional suffix, applied to the part `r` of the string from its first `[`. -/
def matchIterBracket (p r : Str) : Option Str :=
  match r with
  | b :: x :: c :: t =>
    if b == '[' && c == ']' && isIterChar x && isDottedB p then
      matchIterSuffix p t
    else none
  | _ => none

/-- Full anchored match of the source's iterator pattern
`^(\w+(?:\.\w+)*)\[([ijkn])\](?:\.(\w+(?:\.\w+)*))?$`, returning group 1
(`list_name`) on success.  Splitting at the first `[` is equivalent to the
regex because group 1 can contain only word characters and dots. -/
def matchIter (s : Str) : Option Str :=
  matchIterBracket (s.takeWhile (fun c => c != '[')) (s.dropWhile (fun c => c != '['))

/-- One entry of the `extract_first_fields` result. -/
structure FirstField where
  field : Str
  question_id : Yaml
  is_list : Bool
  list_name : Option Str
  suggestion : Str

/-- Suggestion record built from one eligible first field. -/
def mkFirstField (qid : Yaml) (variable_name : Str) : FirstField :=
  match matchIter variable_name with
  | some list_name =>
    { field := variable_name
      question_id := qid
      is_list := true
      list_name := some list_name
      suggestion := list_name ++ chars ".gather()" }
  | none =>
    { field := variable_name
      question_id := qid
      is_list := false
      list_name := none
      suggestion := variable_name }

/-- Loop of `extract_first_fields` over the decoded blocks. -/
def firstFieldsGo : List Yaml → Except PyErr (List FirstField)
  | [] => .ok []
  | block :: rest =>
    match pyContains (chars "fields") block with
    | .error e => .error e
    | .ok hasFields =>
      if !hasFields then firstFieldsGo rest
      else
        match pySubscript block (chars "fields") with
        | .error e => .error e
        | .ok fv =>
          match fv with
          | .ylist fields =>
            match fields with
            | [] => firstFieldsGo rest
            | first_field :: _ =>
              match pyGet block (chars "id") (.ystr []) with
              | .error e => .error e
              | .ok qid =>
                match first_field with
                | .ydict ((_, .ystr variable_name) :: _) => do
                  let more ← firstFieldsGo rest
                  .ok (mkFirstField qid variable_name :: more)
                | _ => firstFieldsGo rest
          | _ => firstFieldsGo rest

/-- Embeds `extract_first_fields`, parameterised by the YAML decoder oracle. -/
def extract_first_fields (parse : Str → Except Str Yaml) (document : Str) :
    Except PyErr (List FirstField) :=
  firstFieldsGo (iter_blocks parse document)

/-- Concrete YAML decoder fixture used by witnesses and counterexamples.  Each
listed segment is mapped to the value the `ruamel.yaml` round-trip loader
produces for it (checkable by hand against YAML 1.2 semantics); unlisted
segments decode to an empty mapping. -/
def parseFix (s : Str) : Except Str Yaml :=
  if s == chars "question: Hi" then
    .ok (.ydict [(.ystr (chars "question"), .ystr (chars "Hi"))])
  else if s == chars "code: x" then
    .ok (.ydict [(.ystr (chars "code"), .ystr (chars "x"))])
  else if s == chars "5" then
    .ok (.yint 5)
  else if s == chars "interview_order: hello" then
    .ok (.ydict [(.ystr (chars "interview_order"), .ystr (chars "hello"))])
  else if s == chars "interview_order:\n  mandatory: true" then
    .ok (.ydict [(.ystr (chars "interview_order"),
      .ydict [(.ystr (chars "mandatory"), .ybool true)])])
  else if s == chars "interview_order:\n  code: |\n    # comment\n    step_one\n\n    step_two" then
    .ok (.ydict [(.ystr (chars "interview_order"),
      .ydict [(.ystr (chars "code"),
        .ystr (chars "# comment\nstep_one\n\nstep_two\n"))])])
  else if s == chars "code: |\n  x = 5\n  y = 'hi'" then
    .ok (.ydict [(.ystr (chars "code"), .ystr (chars "x = 5\ny = 'hi'\n"))])
  else if s == chars "fields:\n  - name: children[i].name" then
    .ok (.ydict [(.ystr (chars "fields"),
      .ylist [.ydict [(.ystr (chars "name"), .ystr (chars "children[i].name"))]])])
  else if s == chars "fields:\n  - name: applicant.name" then
    .ok (.ydict [(.ystr (chars "fields"),
      .ylist [.ydict [(.ystr (chars "name"), .ystr (chars "applicant.name"))]])])
  else if s == chars "fields:\n  - label: x\n    datatype: number" then
    .ok (.ydict [(.ystr (chars "fields"),
      .ylist [.ydict [(.ystr (chars "label"), .ystr (chars "x")),
        (.ystr (chars "datatype"), .ystr (chars "number"))]])])
  else if s == chars "fields:\n  - label: x\n    datatype: [a]" then
    .ok (.ydict [(.ystr (chars "fields"),
      .ylist [.ydict [(.ystr (chars "label"), .ystr (chars "x")),
        (.ystr (chars "datatype"), .ylist [.ystr (chars "a")])]])])
  else if s == chars "a: [" then
    .error (chars "expected the node content, but found end of stream")
  else .ok (.ydict [])

/-- Concrete `ast.parse` fixture: the module `x = 5` / `y = 'hi'` contains two
`Assign` nodes in walk order; other inputs are mapped to a syntax failure. -/
def astFix (code : Str) : Option (List AstAssign) :=
  if code == chars "x = 5\ny = 'hi'\n" then
    some [⟨[.nameT (chars "x")], .constE .intK⟩,
          ⟨[.nameT (chars "y")], .constE .strK⟩]
  else none

/-- Specification-side classifier: the first `BLOCK_TYPES` entry occurring as
a top-level key of the mapping wins; if none occurs, `question` when a
`question` key exists, else `code` (the claim's wording, via `List.find?`). -/
def guessSpec (kvs : List (Yaml × Yaml)) : Str :=
  match BLOCK_TYPES.find? (fun c => kvs.any (fun kv => isStrKey kv.1 c)) with
  | some t => t
  | none =>
    if kvs.any (fun kv => isStrKey kv.1 (chars "question")) then chars "question"
    else chars "code"

/-- Specification-side order extraction: the lines of the code string that are
non-empty after trimming and do not start with `#` after trimming, each
trimmed, in source order. -/
def orderItemsSpec (code : Str) : List Str :=
  ((pySplitlines code).map pyStrip).filter
    (fun l => !l.isEmpty && !(match l with | '#' :: _ => true | _ => false))

/-- Shape condition on a decoded mapping under which `_label_for_block`
cannot raise: a `metadata`/`attachment` payload is a mapping or falsy, and a
string `question` value is non-empty (each only when the block classifies to
that type). -/
def labelShapeOk (kvs : List (Yaml × Yaml)) : Bool :=
  let bt := guessSpec kvs
  if bt == chars "metadata" then
    match dictFind kvs (chars "metadata") with
    | some m => !truthy m || isDict m
    | none => true
  else if bt == chars "question" then
    match dictFind kvs (chars "question") with
    | some (.ystr s) => !s.isEmpty
    | _ => true
  else if bt == chars "attachment" then
    match dictFind kvs (chars "attachment") with
    | some m => !truthy m || isDict m
    | none => true
  else true

/-- Shape condition under which one decoded segment passes through
`analyze_blocks` without a dynamic typing error: falsy values are fine
(normalised to `{}`); truthy values must be mappings, and unless the mapping
has a mapping-valued `interview_order` key, its label-relevant payloads must
be well-shaped (`labelShapeOk`). -/
def blockSafe (v : Yaml) : Bool :=
  if !truthy v then true
  else
    match v with
    | .ydict kvs =>
      (match dictFind kvs (chars "interview_order") with
       | some (.ydict _) => true
       | _ => labelShapeOk kvs)
    | _ => false

/-- Shape condition under which one decoded segment also passes the
re-decoding loop of `validate_document`: additionally, an `interview_order`
value must be a mapping or falsy. -/
def valSafe (v : Yaml) : Bool :=
  blockSafe v &&
    (match v with
     | .ydict kvs =>
       match dictFind kvs (chars "interview_order") with
       | some io => !truthy io || isDict io
       | none => true
     | _ => true)

/-- Shape condition under which one decoded segment passes through
`extract_variables` and `extract_first_fields`: truthy values are mappings. -/
def iterSafe (v : Yaml) : Bool := !truthy v || isDict v

/-- Specification-side test for a segment declaring a truthy
`interview_order.mandatory` (total; agrees with the validator's loop on all
segments the loop survives). -/
def segMandatory (v : Yaml) : Bool :=
  match orEmptyDict v with
  | .ydict kvs =>
    match dictFind kvs (chars "interview_order") with
    | some io =>
      _coerce_bool
        (match orEmptyDict io with
         | .ydict m => (dictFind m (chars "mandatory")).getD .ynull
         | _ => .ynull)
    | none => false
  | _ => false

/-- Number of segments of the document that declare a truthy
`interview_order.mandatory` (decode failures count as not declaring one). -/
def mandCount (parse : Str → Except Str Yaml) (document : Str) : Nat :=
  ((_split_blocks document).filterMap (fun c => (parse c).toOption)).countP
    segMandatory

/-- Total mapped type of a field entry on the non-raising domain: agrees with
`fieldMappedType` whenever that lookup returns. -/
def fieldMappedTypeOk (kvs : List (Yaml × Yaml)) : Str :=
  match (dictFind kvs (chars "datatype")).getD (.ystr (chars "text")) with
  | .ystr d => (assocFind DATATYPE_MAP d).getD (chars "Any")
  | _ => chars "Any"

/-- Total field declaration on the non-raising domain: agrees with `fieldDecl`
whenever that entry does not raise. -/
def fieldDeclOk (f : Yaml) : Option (Str × Str) :=
  match f with
  | .ydict fkvs =>
    match fkvs with
    | (_, .ystr variable_name) :: _ => some (variable_name, fieldMappedTypeOk fkvs)
    | _ => none
  | _ => none

/-- Shape condition under which one field entry's pass-2 `datatype` lookup
cannot raise. -/
def fieldDeclSafe (f : Yaml) : Bool :=
  match fieldDecl f with
  | .ok _ => true
  | .error _ => false

/-- Shape condition under which pass 2 of `extract_variables` survives one
decoded segment: every entry of a list-valued `fields` key has a hashable
`datatype`. -/
def fieldsSafe (v : Yaml) : Bool :=
  match v with
  | .ydict kvs =>
    match dictFind kvs (chars "fields") with
    | some (.ylist fields) => fields.all fieldDeclSafe
    | _ => true
  | _ => true

/-- Field declarations `(variable name, mapped type)` contributed by one block
to pass 2 of `extract_variables`, in source order. -/
def blockFieldDecls (b : Yaml) : List (Str × Str) :=
  match b with
  | .ydict kvs =>
    match dictFind kvs (chars "fields") with
    | some (.ylist fields) => fields.filterMap fieldDeclOk
    | _ => []
  | _ => []

/-- All field declarations across the decoded blocks, in source order. -/
def fieldDecls (blocks : List Yaml) : List (Str × Str) :=
  blocks.foldr (fun b acc => blockFieldDecls b ++ acc) []

/-- Last binding for a name in a declaration list. -/
def lastOf (decls : List (Str × Str)) (name : Str) : Option Str :=
  decls.foldl (fun acc p => if p.1 == name then some p.2 else acc) none

/-- Last field-declared type for a name across all blocks (the declaration
that wins in `extract_variables`). -/
def lastFieldType (blocks : List Yaml) (name : Str) : Option Str :=
  lastOf (fieldDecls blocks) name

/-- Specification-side model of `extract_first_fields` over decoded blocks:
one suggestion per block with a list-valued `fields` key whose first entry is
a non-empty mapping with a string first-key value. -/
def specFirstFields (blocks : List Yaml) : List FirstField :=
  blocks.filterMap (fun b =>
    match b with
    | .ydict kvs =>
      match dictFind kvs (chars "fields") with
      | some (.ylist (f :: _)) =>
        match f with
        | .ydict ((_, .ystr variable_name) :: _) =>
          some (mkFirstField ((dictFind kvs (chars "id")).getD (.ystr []))
            variable_name)
        | _ => none
      | _ => none
    | _ => none)

/-- A non-empty run of word characters. -/
def WordStr (w : Str) : Prop := w ≠ [] ∧ ∀ c ∈ w, isWordChar c = true

/-- Declarative dotted path: word runs joined by single dots
(`\w+(?:\.\w+)*`). -/
inductive DottedPath : Str → Prop
  | single {w : Str} : WordStr w → DottedPath w
  | dotcons {w rest : Str} : WordStr w → DottedPath rest →
      DottedPath (w ++ '.' :: rest)

/-- Declarative reading of the claim's iterator pattern: the string is a
dotted path, then `[` one of `i j k n` `]`, optionally followed by a dot and
another dotted path; `p` is the part before the bracket. -/
def MatchesIter (s p : Str) : Prop :=
  DottedPath p ∧ ∃ x t, isIterChar x = true ∧ s = p ++ '[' :: x :: ']' :: t ∧
    (t = [] ∨ ∃ d, t = '.' :: d ∧ DottedPath d)

/-- Fixture document with two plain blocks. -/
def docTwoBlocks : Str := chars "question: Hi\n---\ncode: x"

/-- Fixture document whose single segment decodes to the integer `5`. -/
def docFive : Str := chars "5"

/-- Fixture document with a non-mapping `interview_order` value. -/
def docIOHello : Str := chars "interview_order: hello"

/-- Fixture document with two mandatory `interview_order` blocks. -/
def docTwoMand : Str :=
  chars "interview_order:\n  mandatory: true\n---\ninterview_order:\n  mandatory: true"

/-- Fixture document with an `interview_order` block carrying a code list. -/
def docIOCode : Str :=
  chars "interview_order:\n  code: |\n    # comment\n    step_one\n\n    step_two"

/-- Fixture document with a code block assigning `x` and `y`. -/
def docCodeAssign : Str := chars "code: |\n  x = 5\n  y = 'hi'"

/-- Fixture document where `x` is assigned in code and also declared by a
field with `datatype: number`. -/
def docCodeField : Str :=
  chars "code: |\n  x = 5\n  y = 'hi'\n---\nfields:\n  - label: x\n    datatype: number"

/-- Fixture document whose first fields use an iterator and a plain name. -/
def docFieldsBoth : Str :=
  chars "fields:\n  - name: children[i].name\n---\nfields:\n  - name: applicant.name"

/-- Fixture document whose only segment fails to decode. -/
def docBadYaml : Str := chars "a: ["

/-- Fixture document whose single field carries a sequence-valued `datatype`
(an unhashable dictionary key in Python). -/
def docFieldsBadDatatype : Str := chars "fields:\n  - label: x\n    datatype: [a]"

/-- Specification-side order items of one decoded segment value: empty unless
the (normalised) value is a mapping with a mapping-valued `interview_order`
key, in which case the items come from that mapping's string `code` entry via
the line filter `orderItemsSpec` (missing, empty or non-string code gives
an empty list). -/
def specOrder (v : Yaml) : List Str :=
  match orEmptyDict v with
  | .ydict kvs =>
    match dictFind kvs (chars "interview_order") with
    | some (.ydict m) =>
      match dictFind m (chars "code") with
      | some (.ystr code) => orderItemsSpec code
      | _ => []
    | _ => []
  | _ => []

/-- The two analyses produced for `docTwoBlocks`, used by witnesses. -/
def resTwoBlocks : List BlockAnalysis :=
  [{ id := chars "question-0", type := chars "question",
     label := some (chars "Hi"), language := chars "yaml", position := 0,
     order_items := [], is_mandatory := false },
   { id := chars "code-1", type := chars "code", label := some (chars "x"),
     language := chars "python", position := 1, order_items := [],
     is_mandatory := false }]

/-- The two suggestions produced for `docFieldsBoth`, used by witnesses. -/
def resFieldsBoth : List FirstField :=
  [mkFirstField (.ystr []) (chars "children[i].name"),
   mkFirstField (.ystr []) (chars "applicant.name")]

theorem analyzeChunk_pos_id {parse : Str → Except Str Yaml} {p : Nat} {c : Str}
    {a : BlockAnalysis} (h : analyzeChunk parse p c = .ok a) :
    a.position = p ∧ a.id = a.type ++ '-' :: natDigits p := by
  unfold analyzeChunk at h
  repeat first
  | exact Except.noConfusion h
  | (injection h with h; subst h; exact ⟨rfl, rfl⟩)
  | (simp only [] at h)
  | (split at h)

theorem analyzeGo_ok {parse : Str → Except Str Yaml} :
    ∀ (chunks : List Str) (p : Nat) (res : List BlockAnalysis),
      analyzeGo parse p chunks = .ok res →
      res.map (fun a => a.position) = List.range' p chunks.length ∧
      ∀ a ∈ res, a.id = a.type ++ '-' :: natDigits a.position := by
  intro chunks
  induction chunks with
  | nil =>
    intro p res h
    simp only [analyzeGo] at h
    injection h with h
    subst h
    simp [List.range']
  | cons c rest ih =>
    intro p res h
    simp only [analyzeGo, bind, Except.bind] at h
    cases hc : analyzeChunk parse p c with
    | error e => rw [hc] at h; cases h
    | ok a =>
      rw [hc] at h
      cases hr : analyzeGo parse (p + 1) rest with
      | error e => rw [hr] at h; cases h
      | ok tail =>
        rw [hr] at h
        injection h with h
        subst h
        obtain ⟨hpos, hid⟩ := analyzeChunk_pos_id hc
        obtain ⟨htail, hids⟩ := ih (p + 1) tail hr
        refine ⟨?_, ?_⟩
        · simp [List.range', hpos, htail]
        · intro x hx
          rcases List.mem_cons.mp hx with h1 | h2
          · subst h1; rw [hpos]; exact hid
          · exact hids x h2

/-- C1: for every document on which `analyze_blocks` succeeds, the returned
analyses carry `position` fields `0, 1, ..., n-1` in order, where `n` is the
number of non-empty segments of the `---` split, and each analysis id is the
string `'{type}-{position}'`. -/
theorem c1_analyze_positions_ids (parse : Str → Except Str Yaml) (D : Str)
    (res : List BlockAnalysis) (h : analyze_blocks parse D = .ok res) :
    res.map (fun a => a.position) = List.range (_split_blocks D).length ∧
    ∀ a ∈ res, a.id = a.type ++ chars "-" ++ natDigits a.position := by
  obtain ⟨h1, h2⟩ := analyzeGo_ok (_split_blocks D) 0 res h
  refine ⟨?_, ?_⟩
  · rw [h1, List.range_eq_range']
  · intro a ha
    simpa using h2 a ha

/-- C1 witness: the two-block fixture document instantiates the theorem. -/
theorem c1_analyze_positions_ids_witness :
    resTwoBlocks.map (fun a => a.position) = List.range (_split_blocks docTwoBlocks).length ∧
    ∀ a ∈ resTwoBlocks, a.id = a.type ++ chars "-" ++ natDigits a.position :=
  c1_analyze_positions_ids parseFix docTwoBlocks resTwoBlocks rfl

theorem guessGo_dict (cands : List Str) (kvs : List (Yaml × Yaml)) :
    guessGo cands (.ydict kvs) =
      .ok (cands.find? (fun c => kvs.any (fun kv => isStrKey kv.1 c))) := by
  induction cands with
  | nil => rfl
  | cons c rest ih =>
    simp only [guessGo, pyContains, bind, Except.bind, List.find?]
    cases hc : kvs.any (fun kv => isStrKey kv.1 c) with
    | true => simp [hc, pure, Except.pure]
    | false => simp [hc, ih]

/-- C6: on every decoded mapping the classifier returns the first vocabulary
entry present as a top-level key, and otherwise `question` when a `question`
key exists, else `code` (the explicit `guessSpec` reading of the claim). -/
theorem c6_guess_first_match (kvs : List (Yaml × Yaml)) :
    _guess_block_type (.ydict kvs) = .ok (guessSpec kvs) := by
  simp only [_guess_block_type, bind, Except.bind, guessGo_dict, guessSpec]
  cases hf : BLOCK_TYPES.find? (fun c => kvs.any (fun kv => isStrKey kv.1 c)) with
  | some t => rfl
  | none =>
    simp only [pyContains, pure, Except.pure]
    cases hq : kvs.any (fun kv => isStrKey kv.1 (chars "question")) <;> simp [hq]

theorem guessGo_some_mem {cands : List Str} {v : Yaml} {t : Str}
    (h : guessGo cands v = .ok (some t)) : t ∈ cands := by
  induction cands with
  | nil => simp [guessGo, pure, Except.pure] at h
  | cons c rest ih =>
    simp only [guessGo, bind, Except.bind] at h
    cases hv : pyContains c v with
    | error e => rw [hv] at h; cases h
    | ok b =>
      rw [hv] at h
      cases b with
      | true =>
        simp only [if_pos rfl, pure, Except.pure] at h
        injection h with h
        injection h with h
        subst h
        exact List.mem_cons_self _ _
      | false =>
        simp only [Bool.false_eq_true, if_false] at h
        exact List.mem_cons_of_mem _ (ih h)

theorem guess_mem_block_types {v : Yaml} {t : Str}
    (h : _guess_block_type v = .ok t) : t ∈ BLOCK_TYPES := by
  simp only [_guess_block_type, bind, Except.bind] at h
  cases hg : guessGo BLOCK_TYPES v with
  | error e => rw [hg] at h; cases h
  | ok o =>
    rw [hg] at h
    cases o with
    | some t' =>
      simp only [pure, Except.pure] at h
      injection h with h
      subst h
      exact guessGo_some_mem hg
    | none =>
      cases hq : pyContains (chars "question") v with
      | error e => rw [hq] at h; cases h
      | ok b =>
        rw [hq] at h
        cases b <;> simp only [pure, Except.pure, Bool.false_eq_true, if_false, if_pos rfl] at h <;>
          (injection h with h; subst h; decide)

theorem analyzeChunk_type {parse : Str → Except Str Yaml} {p : Nat} {c : Str}
    {a : BlockAnalysis} (h : analyzeChunk parse p c = .ok a) :
    ∃ dv, _guess_block_type dv = .ok a.type := by
  unfold analyzeChunk at h
  repeat first
  | exact Except.noConfusion h
  | (injection h with h; subst h; exact ⟨_, by assumption⟩)
  | (simp only [] at h)
  | (split at h)

theorem analyzeGo_mem {parse : Str → Except Str Yaml} :
    ∀ (chunks : List Str) (p : Nat) (res : List BlockAnalysis),
      analyzeGo parse p chunks = .ok res →
      ∀ b ∈ res, ∃ q c, analyzeChunk parse q c = .ok b := by
  intro chunks
  induction chunks with
  | nil =>
    intro p res h
    simp only [analyzeGo] at h
    injection h with h
    subst h
    intro b hb
    cases hb
  | cons c rest ih =>
    intro p res h
    simp only [analyzeGo, bind, Except.bind] at h
    cases hc : analyzeChunk parse p c with
    | error e => rw [hc] at h; cases h
    | ok a =>
      rw [hc] at h
      cases hr : analyzeGo parse (p + 1) rest with
      | error e => rw [hr] at h; cases h
      | ok tail =>
        rw [hr] at h
        injection h with h
        subst h
        intro b hb
        rcases List.mem_cons.mp hb with h1 | h2
        · exact ⟨p, c, h1 ▸ hc⟩
        · exact ih (p + 1) tail hr b h2

theorem mand_msgs {parse : Str → Except Str Yaml} :
    ∀ (chunks : List Str) (seen : Bool) (msgs : List Str),
      mandLoop parse chunks seen = .ok msgs →
      ∀ m ∈ msgs, m = dupMandatoryMsg ∨ ∃ d, m = invalidYamlMsg d := by
  intro chunks
  induction chunks with
  | nil =>
    intro seen msgs h
    simp only [mandLoop] at h
    injection h with h
    subst h
    intro m hm
    cases hm
  | cons c rest ih =>
    intro seen msgs h
    simp only [mandLoop, bind, Except.bind] at h
    cases hc : parse c with
    | error d =>
      rw [hc] at h
      cases hr : mandLoop parse rest seen with
      | error e => rw [hr] at h; cases h
      | ok more =>
        rw [hr] at h
        injection h with h
        subst h
        intro m hm
        rcases List.mem_cons.mp hm with h1 | h2
        · exact Or.inr ⟨d, h1⟩
        · exact ih seen more hr m h2
    | ok v =>
      rw [hc] at h
      simp only [] at h
      split at h
      · exact Except.noConfusion h
      next hio =>
      split at h
      · split at h
        · exact Except.noConfusion h
        next ioval hsub =>
        split at h
        · exact Except.noConfusion h
        next mv hmv =>
        cases hr : mandLoop parse rest (seen || _coerce_bool mv) with
        | error e => rw [hr] at h; cases h
        | ok more =>
          rw [hr] at h
          simp only [Except.bind] at h
          split at h
          · injection h with h
            subst h
            intro m hm
            rcases List.mem_cons.mp hm with h1 | h2
            · exact Or.inl h1
            · exact ih _ more hr m h2
          · injection h with h
            subst h
            exact ih _ more hr
      · exact ih seen msgs h

/-- C10: the classifier's result is always a member of the `BLOCK_TYPES`
vocabulary (its fallbacks included), so the `Unsupported block type` branch of
`validate_document` is unreachable and no issue message of that form appears
in its output. -/
theorem c10_no_unsupported :
    (∀ (v : Yaml) (t : Str), _guess_block_type v = .ok t → t ∈ BLOCK_TYPES) ∧
    (∀ (parse : Str → Except Str Yaml) (doc : Str) (issues : List Str),
      validate_document parse doc = .ok issues →
      ∀ m ∈ issues, List.isPrefixOf (chars "Unsupported block type ") m = false) := by
  constructor
  · intro v t h
    exact guess_mem_block_types h
  · intro parse doc issues h m hm
    unfold validate_document at h
    split at h
    · next pos diag heq =>
      injection h with h
      subst h
      rcases List.mem_singleton.mp hm with rfl
      rfl
    · exact Except.noConfusion h
    · next blocks heq =>
      have hunsup : blocks.filterMap (fun b =>
          if BLOCK_TYPES.contains b.type then none else some (unsupportedMsg b)) = [] := by
        rw [List.filterMap_eq_nil_iff]
        intro b hb
        obtain ⟨q, c, hbc⟩ := analyzeGo_mem (_split_blocks doc) 0 blocks heq b hb
        obtain ⟨dv, hdv⟩ := analyzeChunk_type hbc
        rw [if_pos (List.elem_eq_true_of_mem (guess_mem_block_types hdv))]
      rw [hunsup] at h
      split at h
      · exact Except.noConfusion h
      · next dupIssues hmand =>
        injection h with h
        subst h
        simp only [List.nil_append] at hm
        rcases mand_msgs (_split_blocks doc) false dupIssues hmand m hm with h1 | ⟨d, h2⟩
        · subst h1; rfl
        · subst h2; rfl

/-- C10 witness: instantiation at a concrete mapping and the two-mandatory
fixture document. -/
theorem c10_no_unsupported_witness :
    (chars "question") ∈ BLOCK_TYPES ∧
    List.isPrefixOf (chars "Unsupported block type ") dupMandatoryMsg = false :=
  ⟨c10_no_unsupported.1 (.ydict [(.ystr (chars "question"), .ystr (chars "Hi"))])
      (chars "question") rfl,
   c10_no_unsupported.2 parseFix docTwoMand [dupMandatoryMsg] rfl dupMandatoryMsg
      (List.mem_singleton.mpr rfl)⟩

theorem order_source_eq_spec (c : Str) :
    _order_items_from_code (some c) = orderItemsSpec c := by
  cases hc : c.isEmpty with
  | true =>
    have : c = [] := by cases c with | nil => rfl | cons a l => simp [List.isEmpty] at hc
    subst this
    rfl
  | false =>
    simp only [_order_items_from_code, hc, Bool.false_eq_true, if_false, orderItemsSpec]
    rw [List.filter_map]
    rfl

theorem analyzeGo_index {parse : Str → Except Str Yaml} :
    ∀ (chunks : List Str) (p : Nat) (res : List BlockAnalysis),
      analyzeGo parse p chunks = .ok res →
      ∀ (i : Nat) (c : Str) (a : BlockAnalysis),
        chunks[i]? = some c → res[i]? = some a →
        analyzeChunk parse (p + i) c = .ok a := by
  intro chunks
  induction chunks with
  | nil =>
    intro p res h i c a hc ha
    simp at hc
  | cons c0 rest ih =>
    intro p res h i c a hc ha
    simp only [analyzeGo, bind, Except.bind] at h
    cases h0 : analyzeChunk parse p c0 with
    | error e => rw [h0] at h; cases h
    | ok a0 =>
      rw [h0] at h
      cases hr : analyzeGo parse (p + 1) rest with
      | error e => rw [hr] at h; cases h
      | ok tail =>
        rw [hr] at h
        injection h with h
        subst h
        cases i with
        | zero =>
          simp only [List.getElem?_cons_zero] at hc ha
          injection hc with hc
          injection ha with ha
          subst hc; subst ha
          simpa using h0
        | succ j =>
          simp only [List.getElem?_cons_succ] at hc ha
          have := ih (p + 1) tail hr j c a hc ha
          rw [show p + 1 + j = p + (j + 1) by omega] at this
          exact this

theorem analyzeChunk_order_items {parse : Str → Except Str Yaml} {p : Nat}
    {c : Str} {a : BlockAnalysis} {v : Yaml}
    (h : analyzeChunk parse p c = .ok a) (hv : parse c = .ok v) :
    a.order_items = specOrder v := by
  unfold analyzeChunk at h
  rw [hv] at h
  simp only [] at h
  split at h
  · exact Except.noConfusion h
  next bt hbt =>
  split at h
  · exact Except.noConfusion h
  next label hlabel =>
  split at h
  · exact Except.noConfusion h
  next iop hiop =>
  cases hd : orEmptyDict v with
  | ydict kvs =>
    rw [hd] at hiop
    simp only [pyGet] at hiop
    injection hiop with hiop
    split at h
    next hdict =>
      split at h
      · exact Except.noConfusion h
      next cv hcv =>
      try simp only [] at h
      split at h
      · exact Except.noConfusion h
      next mv hmv =>
      injection h with h
      subst h
      cases hfind : dictFind kvs (chars "interview_order") with
      | none =>
        rw [hfind] at hiop
        simp only [Option.getD_none] at hiop
        subst hiop
        simp [isDict] at hdict
      | some x =>
        rw [hfind] at hiop
        simp only [Option.getD_some] at hiop
        subst hiop
        cases x with
        | ydict m =>
          simp only [pyGet] at hcv
          injection hcv with hcv
          subst hcv
          simp only [specOrder, hd, hfind]
          cases hcode : dictFind m (chars "code") with
          | none => simp [Option.getD_none, _order_items_from_code]
          | some cv0 =>
            simp only [Option.getD_some]
            cases cv0 with
            | ystr s => simpa using order_source_eq_spec s
            | ynull => simp [_order_items_from_code]
            | ybool b => simp [_order_items_from_code]
            | yint n => simp [_order_items_from_code]
            | yfloat q => simp [_order_items_from_code]
            | ylist xs => simp [_order_items_from_code]
            | ydict kvs2 => simp [_order_items_from_code]
            | yother => simp [_order_items_from_code]
        | ynull => simp [isDict] at hdict
        | ybool b => simp [isDict] at hdict
        | yint n => simp [isDict] at hdict
        | yfloat q => simp [isDict] at hdict
        | ystr s => simp [isDict] at hdict
        | ylist xs => simp [isDict] at hdict
        | yother => simp [isDict] at hdict
    next hdict =>
      split at h
      · exact Except.noConfusion h
      next mv hmv =>
      injection h with h
      subst h
      simp only [specOrder, hd]
      cases hfind : dictFind kvs (chars "interview_order") with
      | none => rfl
      | some x =>
        rw [hfind] at hiop
        simp only [Option.getD_some] at hiop
        subst hiop
        cases x with
        | ydict m => simp [isDict] at hdict
        | ynull => rfl
        | ybool b => rfl
        | yint n => rfl
        | yfloat q => rfl
        | ystr s => rfl
        | ylist xs => rfl
        | yother => rfl
  | ynull => rw [hd] at hiop; exact Except.noConfusion hiop
  | ybool b => rw [hd] at hiop; exact Except.noConfusion hiop
  | yint n => rw [hd] at hiop; exact Except.noConfusion hiop
  | yfloat q => rw [hd] at hiop; exact Except.noConfusion hiop
  | ystr s => rw [hd] at hiop; exact Except.noConfusion hiop
  | ylist xs => rw [hd] at hiop; exact Except.noConfusion hiop
  | yother => rw [hd] at hiop; exact Except.noConfusion hiop

/-- C7: each analysis's `order_items` is empty unless its segment's decoded
value carries a mapping-valued top-level `interview_order` key, in which case
it is the trimmed non-empty non-comment lines of that mapping's `code` string
in order (`specOrder`); and the claim's concrete example evaluates as stated. -/
theorem c7_order_items :
    (∀ (parse : Str → Except Str Yaml) (doc : Str) (res : List BlockAnalysis),
      analyze_blocks parse doc = .ok res →
      ∀ (i : Nat) (a : BlockAnalysis) (chunk : Str) (v : Yaml),
        res[i]? = some a → (_split_blocks doc)[i]? = some chunk →
        parse chunk = .ok v → a.order_items = specOrder v) ∧
    _order_items_from_code (some (chars "# comment\nstep_one\n\nstep_two\n")) =
      [chars "step_one", chars "step_two"] := by
  constructor
  · intro parse doc res h i a chunk v ha hc hv
    exact analyzeChunk_order_items
      (analyzeGo_index (_split_blocks doc) 0 res h i chunk a hc ha) hv
  · rfl

/-- C7 witness: the interview-order fixture block instantiates the theorem. -/
theorem c7_order_items_witness :
    ({ id := chars "code-0", type := chars "code",
       label := some (chars "Interview Order"), language := chars "python",
       position := 0, order_items := [chars "step_one", chars "step_two"],
       is_mandatory := false } : BlockAnalysis).order_items =
      specOrder (.ydict [(.ystr (chars "interview_order"),
        .ydict [(.ystr (chars "code"),
          .ystr (chars "# comment\nstep_one\n\nstep_two\n"))])]) :=
  c7_order_items.1 parseFix docIOCode
    [{ id := chars "code-0", type := chars "code",
       label := some (chars "Interview Order"), language := chars "python",
       position := 0, order_items := [chars "step_one", chars "step_two"],
       is_mandatory := false }] rfl 0 _ docIOCode
    (.ydict [(.ystr (chars "interview_order"),
      .ydict [(.ystr (chars "code"),
        .ystr (chars "# comment\nstep_one\n\nstep_two\n"))])]) rfl rfl rfl

theorem invalid_ne_dup (d : Str) : invalidYamlMsg d ≠ dupMandatoryMsg := by
  intro h
  have h2 : (invalidYamlMsg d).head? = dupMandatoryMsg.head? := by rw [h]
  have e1 : (invalidYamlMsg d).head? = some 'I' := rfl
  have e2 : dupMandatoryMsg.head? = some 'O' := rfl
  rw [e1, e2] at h2
  exact absurd h2 (by decide)

theorem any_key_eq_isSome (kvs : List (Yaml × Yaml)) (k : Str) :
    kvs.any (fun kv => isStrKey kv.1 k) = (dictFind kvs k).isSome := by
  induction kvs with
  | nil => rfl
  | cons kv rest ih =>
    cases kv with
    | mk key v =>
      simp only [List.any_cons, dictFind]
      cases hk : isStrKey key k with
      | true => simp
      | false => simp [ih]

theorem mandLoop_count {parse : Str → Except Str Yaml} :
    ∀ (chunks : List Str) (seen : Bool) (msgs : List Str),
      mandLoop parse chunks seen = .ok msgs →
      msgs.count dupMandatoryMsg =
        (chunks.filterMap (fun c => (parse c).toOption)).countP segMandatory -
          (if seen then 0 else 1) := by
  intro chunks
  induction chunks with
  | nil =>
    intro seen msgs h
    simp only [mandLoop] at h
    injection h with h
    subst h
    simp
  | cons c rest ih =>
    intro seen msgs h
    simp only [mandLoop, bind, Except.bind] at h
    cases hc : parse c with
    | error d =>
      rw [hc] at h
      cases hr : mandLoop parse rest seen with
      | error e => rw [hr] at h; cases h
      | ok more =>
        rw [hr] at h
        injection h with h
        subst h
        simp only [List.filterMap_cons, hc, Except.toOption]
        rw [List.count_cons_of_ne (Ne.symm (invalid_ne_dup d))]
        exact ih seen more hr
    | ok v =>
      rw [hc] at h
      simp only [] at h
      have hfm : (List.filterMap (fun c => (parse c).toOption) (c :: rest)) =
          v :: rest.filterMap (fun c => (parse c).toOption) := by
        simp [List.filterMap_cons, hc, Except.toOption]
      split at h
      · exact Except.noConfusion h
      next hasIO hio =>
      split at h
      next htrue =>
        split at h
        · exact Except.noConfusion h
        next ioval hsub =>
        split at h
        · exact Except.noConfusion h
        next mv hmv =>
        have hdata : ∃ kvs, orEmptyDict v = .ydict kvs := by
          cases hd : orEmptyDict v with
          | ydict kvs => exact ⟨kvs, rfl⟩
          | ynull => rw [hd] at hsub; cases hsub
          | ybool b => rw [hd] at hsub; cases hsub
          | yint n => rw [hd] at hsub; cases hsub
          | yfloat q => rw [hd] at hsub; cases hsub
          | ystr s =>
            rw [hd] at hsub
            simp only [pySubscript] at hsub
            exact Except.noConfusion hsub
          | ylist xs =>
            rw [hd] at hsub
            simp only [pySubscript] at hsub
            exact Except.noConfusion hsub
          | yother => rw [hd] at hsub; cases hsub
        obtain ⟨kvs, hd⟩ := hdata
        rw [hd] at hsub
        simp only [pySubscript] at hsub
        have hflag : _coerce_bool mv = segMandatory v := by
          cases hfind : dictFind kvs (chars "interview_order") with
          | none => rw [hfind] at hsub; cases hsub
          | some io =>
            rw [hfind] at hsub
            injection hsub with hsub
            subst hsub
            cases hm : orEmptyDict io with
            | ydict m =>
              rw [hm] at hmv
              simp only [pyGet] at hmv
              injection hmv with hmv
              subst hmv
              simp only [segMandatory, hd, hfind, hm]
            | ynull => rw [hm] at hmv; cases hmv
            | ybool b => rw [hm] at hmv; cases hmv
            | yint n => rw [hm] at hmv; cases hmv
            | yfloat q => rw [hm] at hmv; cases hmv
            | ystr s => rw [hm] at hmv; cases hmv
            | ylist xs => rw [hm] at hmv; cases hmv
            | yother => rw [hm] at hmv; cases hmv
        cases hr : mandLoop parse rest (seen || _coerce_bool mv) with
        | error e => rw [hr] at h; cases h
        | ok more =>
          rw [hr] at h
          simp only [Except.bind] at h
          have ihm := ih _ more hr
          rw [hfm]
          cases hsm : segMandatory v with
          | true =>
            rw [hsm] at hflag
            rw [hflag] at h hr ihm
            simp only [Bool.or_true] at ihm hr
            cases seen with
            | true =>
              simp only [Bool.and_true, if_pos rfl] at h
              injection h with h
              subst h
              rw [List.count_cons_self]
              simp [List.countP_cons, hsm] at ihm ⊢
              omega
            | false =>
              simp only [Bool.and_false, Bool.false_eq_true, if_false] at h
              injection h with h
              subst h
              simp [List.countP_cons, hsm] at ihm ⊢
              omega
          | false =>
            rw [hsm] at hflag
            rw [hflag] at h hr ihm
            simp only [Bool.or_false] at ihm hr
            simp only [Bool.false_and, Bool.false_eq_true, if_false] at h
            injection h with h
            subst h
            simp only [List.countP_cons, hsm, Bool.false_eq_true, if_false]
            omega
      next hfalse =>
        have ihm := ih seen msgs h
        rw [hfm]
        have hsm : segMandatory v = false := by
          cases hd : orEmptyDict v with
          | ydict kvs =>
            rw [hd] at hio
            simp only [pyContains] at hio
            injection hio with hio
            have hnone : dictFind kvs (chars "interview_order") = none := by
              cases hfind : dictFind kvs (chars "interview_order") with
              | none => rfl
              | some io =>
                exfalso
                rw [any_key_eq_isSome, hfind] at hio
                simp at hio
                exact hfalse hio
            simp only [segMandatory, hd, hnone]
          | ynull => simp only [segMandatory, hd]
          | ybool b => simp only [segMandatory, hd]
          | yint n => simp only [segMandatory, hd]
          | yfloat q => simp only [segMandatory, hd]
          | ystr s => simp only [segMandatory, hd]
          | ylist xs => simp only [segMandatory, hd]
          | yother => simp only [segMandatory, hd]
        simp only [List.countP_cons, hsm, Bool.false_eq_true, if_false]
        omega

theorem unsupported_filter_nil {parse : Str → Except Str Yaml} {doc : Str}
    {blocks : List BlockAnalysis} (h : analyze_blocks parse doc = .ok blocks) :
    blocks.filterMap (fun b =>
      if BLOCK_TYPES.contains b.type then none else some (unsupportedMsg b)) = [] := by
  rw [List.filterMap_eq_nil_iff]
  intro b hb
  obtain ⟨q, c, hbc⟩ := analyzeGo_mem (_split_blocks doc) 0 blocks h b hb
  obtain ⟨dv, hdv⟩ := analyzeChunk_type hbc
  rw [if_pos (List.elem_eq_true_of_mem (guess_mem_block_types hdv))]

/-- C4: on every document that analyzes successfully, the number of
duplicate-mandatory issues reported by `validate_document` is one less than
the number of segments declaring a truthy `interview_order.mandatory`
(truncated at zero); in particular the two-mandatory fixture yields exactly
one such issue and an HTTP `valid` flag of `false`. -/
theorem c4_duplicate_mandatory :
    (∀ (parse : Str → Except Str Yaml) (doc : Str) (blocks : List BlockAnalysis)
        (issues : List Str),
      analyze_blocks parse doc = .ok blocks →
      validate_document parse doc = .ok issues →
      issues.count dupMandatoryMsg = mandCount parse doc - 1) ∧
    validate_document parseFix docTwoMand = .ok [dupMandatoryMsg] ∧
    validate_yaml_valid parseFix docTwoMand = .ok false := by
  refine ⟨?_, rfl, rfl⟩
  intro parse doc blocks issues ha h
  unfold validate_document at h
  rw [ha] at h
  simp only [] at h
  rw [unsupported_filter_nil ha] at h
  split at h
  · exact Except.noConfusion h
  next dupIssues hmand =>
  injection h with h
  subst h
  simp only [List.nil_append]
  have := mandLoop_count (_split_blocks doc) false dupIssues hmand
  simpa [mandCount] using this

/-- C4 witness: the two-mandatory fixture instantiates the counting part. -/
theorem c4_duplicate_mandatory_witness :
    ([dupMandatoryMsg] : List Str).count dupMandatoryMsg =
      mandCount parseFix docTwoMand - 1 :=
  c4_duplicate_mandatory.1 parseFix docTwoMand
    [{ id := chars "code-0", type := chars "code",
       label := some (chars "Interview Order"), language := chars "python",
       position := 0, order_items := [], is_mandatory := true },
     { id := chars "code-1", type := chars "code",
       label := some (chars "Interview Order"), language := chars "python",
       position := 1, order_items := [], is_mandatory := true }]
    [dupMandatoryMsg] rfl rfl

theorem guess_dict_eq (kvs : List (Yaml × Yaml)) :
    _guess_block_type (.ydict kvs) = .ok (guessSpec kvs) := by
  simp only [_guess_block_type, bind, Except.bind, guessGo_dict, guessSpec]
  cases hf : BLOCK_TYPES.find? (fun c => kvs.any (fun kv => isStrKey kv.1 c)) with
  | some t => rfl
  | none =>
    simp only [pyContains, pure, Except.pure]
    cases hq : kvs.any (fun kv => isStrKey kv.1 (chars "question")) <;> simp [hq]

theorem or_empty_dict_safe {m : Yaml} (h : (!truthy m || isDict m) = true) :
    ∃ mk, orEmptyDict m = .ydict mk := by
  unfold orEmptyDict
  cases ht : truthy m with
  | false => exact ⟨[], rfl⟩
  | true =>
    rw [ht] at h
    simp only [Bool.not_true, Bool.false_or] at h
    cases m with
    | ydict mk => exact ⟨mk, rfl⟩
    | ynull => cases h
    | ybool b => cases h
    | yint n => cases h
    | yfloat q => cases h
    | ystr s => cases h
    | ylist xs => cases h
    | yother => cases h

theorem safe_dict {v : Yaml} (hs : blockSafe v = true) :
    ∃ kvs, orEmptyDict v = .ydict kvs := by
  unfold orEmptyDict
  cases ht : truthy v with
  | false => exact ⟨[], rfl⟩
  | true =>
    unfold blockSafe at hs
    rw [ht] at hs
    simp only [Bool.not_true, Bool.false_eq_true, if_false] at hs
    cases v with
    | ydict kvs => exact ⟨kvs, rfl⟩
    | ynull => cases hs
    | ybool b => cases hs
    | yint n => cases hs
    | yfloat q => cases hs
    | ystr s => cases hs
    | ylist xs => cases hs
    | yother => cases hs

theorem label_shape_spec {kvs : List (Yaml × Yaml)} (hs : labelShapeOk kvs = true) :
    (guessSpec kvs = chars "metadata" →
       ∀ m, dictFind kvs (chars "metadata") = some m → (!truthy m || isDict m) = true) ∧
    (guessSpec kvs = chars "question" →
       ∀ s, dictFind kvs (chars "question") = some (.ystr s) → s ≠ []) ∧
    (guessSpec kvs = chars "attachment" →
       ∀ m, dictFind kvs (chars "attachment") = some m → (!truthy m || isDict m) = true) := by
  unfold labelShapeOk at hs
  simp only [] at hs
  refine ⟨?_, ?_, ?_⟩
  · intro hbt m hm
    rw [hbt] at hs
    simp only [beq_self_eq_true, if_pos rfl, hm] at hs
    exact hs
  · intro hbt s hm
    rw [hbt] at hs
    have h1 : (chars "question" == chars "metadata") = false := by decide
    rw [h1] at hs
    simp only [Bool.false_eq_true, if_false, beq_self_eq_true, if_pos rfl, hm] at hs
    intro he
    subst he
    simp at hs
  · intro hbt m hm
    rw [hbt] at hs
    have h1 : (chars "attachment" == chars "metadata") = false := by decide
    have h2 : (chars "attachment" == chars "question") = false := by decide
    rw [h1] at hs
    simp only [Bool.false_eq_true, if_false] at hs
    rw [h2] at hs
    simp only [Bool.false_eq_true, if_false, beq_self_eq_true, if_pos rfl, hm] at hs
    exact hs

theorem splitlinesGo_nil_eq (acc : Str) :
    splitlinesGo [] acc = if acc.isEmpty then [] else [acc.reverse] := rfl

theorem splitlinesGo_nl (rest acc : Str) :
    splitlinesGo ('\n' :: rest) acc = acc.reverse :: splitlinesGo rest [] := by
  conv =>
    lhs
    unfold splitlinesGo
  rfl

theorem splitlinesGo_cr_nil (acc : Str) :
    splitlinesGo ['\r'] acc = acc.reverse :: splitlinesGo [] [] := by
  conv =>
    lhs
    unfold splitlinesGo
  rfl

theorem splitlinesGo_crlf (rest acc : Str) :
    splitlinesGo ('\r' :: '\n' :: rest) acc = acc.reverse :: splitlinesGo rest [] := by
  conv =>
    lhs
    unfold splitlinesGo
  rfl

theorem splitlinesGo_cr_cons (r1 : Char) (rest2 acc : Str)
    (h : (r1 == '\n') = false) :
    splitlinesGo ('\r' :: r1 :: rest2) acc =
      acc.reverse :: splitlinesGo (r1 :: rest2) [] := by
  conv =>
    lhs
    unfold splitlinesGo
  simp [h]

theorem splitlinesGo_other (c : Char) (rest acc : Str)
    (h1 : (c == '\n') = false) (h2 : (c == '\r') = false) :
    splitlinesGo (c :: rest) acc = splitlinesGo rest (c :: acc) := by
  conv =>
    lhs
    unfold splitlinesGo
  simp [h1, h2]

theorem splitlinesGo_eq_nil {s acc : Str} (h : splitlinesGo s acc = []) :
    s = [] ∧ acc = [] := by
  induction s generalizing acc with
  | nil =>
    rw [splitlinesGo_nil_eq] at h
    refine ⟨rfl, ?_⟩
    by_contra hne
    rw [if_neg (by simpa using hne)] at h
    cases h
  | cons c rest ih =>
    by_cases h1 : (c == '\n') = true
    · rw [eq_of_beq h1, splitlinesGo_nl] at h
      cases h
    · by_cases h2 : (c == '\r') = true
      · rw [eq_of_beq h2] at h
        cases rest with
        | nil => rw [splitlinesGo_cr_nil] at h; cases h
        | cons r1 rest2 =>
          by_cases h3 : (r1 == '\n') = true
          · rw [eq_of_beq h3, splitlinesGo_crlf] at h
            cases h
          · rw [splitlinesGo_cr_cons r1 rest2 acc (by simpa using h3)] at h
            cases h
      · rw [splitlinesGo_other c rest acc (by simpa using h1) (by simpa using h2)] at h
        exact absurd (ih h).2 (by simp)

theorem splitlines_ne_nil {s : Str} (hs : s ≠ []) : pySplitlines s ≠ [] := by
  intro h
  exact hs (splitlinesGo_eq_nil h).1


theorem codeLabelCheck_dict_ok (bt : Str) (kvs : List (Yaml × Yaml)) (c : Str) :
    ∃ r, codeLabelCheck bt (.ydict kvs) c = .ok r := by
  cases hX : codeLabelCheck bt (.ydict kvs) c with
  | ok r => exact ⟨r, rfl⟩
  | error e =>
    exfalso
    unfold codeLabelCheck at hX
    simp only [pyGet, bind, Except.bind, pure, Except.pure] at hX
    repeat first
    | exact Except.noConfusion hX
    | (simp only [] at hX)
    | (split at hX)

theorem label_ok_of_safe (c : Str) {kvs : List (Yaml × Yaml)}
    (hio : (match dictFind kvs (chars "interview_order") with
            | some (.ydict _) => true
            | _ => labelShapeOk kvs) = true) :
    ∃ l, _label_for_block (guessSpec kvs) (.ydict kvs) c = .ok l := by
  cases hX : _label_for_block (guessSpec kvs) (.ydict kvs) c with
  | ok l => exact ⟨l, rfl⟩
  | error e =>
    exfalso
    unfold _label_for_block at hX
    obtain ⟨r, hr⟩ := codeLabelCheck_dict_ok (guessSpec kvs) kvs c
    simp only [pyGet, bind, Except.bind, pure, Except.pure, hr] at hX
    -- the interview_order early return
    by_cases hdio : isDict ((dictFind kvs (chars "interview_order")).getD .ynull) = true
    · rw [if_pos hdio] at hX
      exact Except.noConfusion hX
    · rw [if_neg hdio] at hX
      -- labelShapeOk holds: the interview_order value is not a mapping
      have hshape : labelShapeOk kvs = true := by
        cases hf : dictFind kvs (chars "interview_order") with
        | none => rw [hf] at hio; exact hio
        | some io =>
          rw [hf] at hio
          cases io with
          | ydict m => exfalso; rw [hf] at hdio; simp [isDict] at hdio
          | ynull => exact hio
          | ybool b => exact hio
          | yint n => exact hio
          | yfloat q => exact hio
          | ystr s => exact hio
          | ylist xs => exact hio
          | yother => exact hio
      obtain ⟨hmeta, hq, hatt⟩ := label_shape_spec hshape
      cases r with
      | some rr => exact Except.noConfusion hX
      | none =>
        by_cases hbt1 : (guessSpec kvs == chars "metadata") = true
        · rw [if_pos hbt1] at hX
          have hbt1' := eq_of_beq hbt1
          cases hf : dictFind kvs (chars "metadata") with
          | none =>
            rw [hf] at hX
            simp only [Option.getD_none,
              show orEmptyDict Yaml.ynull = Yaml.ydict [] from rfl] at hX
            split at hX <;> exact Except.noConfusion hX
          | some m =>
            obtain ⟨mk, hmk⟩ := or_empty_dict_safe (hmeta hbt1' m hf)
            rw [hf] at hX
            simp only [Option.getD_some, hmk] at hX
            split at hX <;> exact Except.noConfusion hX
        · rw [if_neg hbt1] at hX
          by_cases hbt2 : (guessSpec kvs == chars "question") = true
          · rw [if_pos hbt2] at hX
            have hbt2' := eq_of_beq hbt2
            cases hf : dictFind kvs (chars "question") with
            | none => rw [hf] at hX; exact Except.noConfusion hX
            | some qv =>
              rw [hf] at hX
              simp only [Option.getD_some] at hX
              cases qv with
              | ystr s =>
                simp only [] at hX
                cases hsp : pySplitlines s with
                | nil => exact absurd (splitlinesGo_eq_nil hsp).1 (hq hbt2' s hf)
                | cons l ls => rw [hsp] at hX; exact Except.noConfusion hX
              | ynull => exact Except.noConfusion hX
              | ybool b => exact Except.noConfusion hX
              | yint n => exact Except.noConfusion hX
              | yfloat q2 => exact Except.noConfusion hX
              | ylist xs => exact Except.noConfusion hX
              | ydict m => exact Except.noConfusion hX
              | yother => exact Except.noConfusion hX
          · rw [if_neg hbt2] at hX
            by_cases hbt3 : (guessSpec kvs == chars "code") = true
            · rw [if_pos hbt3] at hX
              repeat first
              | exact Except.noConfusion hX
              | (simp only [] at hX)
              | (split at hX)
            · rw [if_neg hbt3] at hX
              by_cases hbt4 : (guessSpec kvs == chars "attachment") = true
              · rw [if_pos hbt4] at hX
                have hbt4' := eq_of_beq hbt4
                cases hf : dictFind kvs (chars "attachment") with
                | none =>
                  rw [hf] at hX
                  simp only [Option.getD_none,
                    show orEmptyDict Yaml.ynull = Yaml.ydict [] from rfl] at hX
                  split at hX <;> exact Except.noConfusion hX
                | some m =>
                  obtain ⟨mk, hmk⟩ := or_empty_dict_safe (hatt hbt4' m hf)
                  rw [hf] at hX
                  simp only [Option.getD_some, hmk] at hX
                  split at hX <;> exact Except.noConfusion hX
              · rw [if_neg hbt4] at hX
                by_cases hbt5 : (guessSpec kvs == chars "event") = true
                · rw [if_pos hbt5] at hX
                  by_cases hev : truthy ((dictFind kvs (chars "event")).getD .ynull) = true
                  · rw [if_pos hev] at hX; exact Except.noConfusion hX
                  · rw [if_neg hev] at hX; exact Except.noConfusion hX
                · rw [if_neg hbt5] at hX
                  exact Except.noConfusion hX

theorem block_safe_shape {v : Yaml} {kvs : List (Yaml × Yaml)}
    (hs : blockSafe v = true) (hd : orEmptyDict v = .ydict kvs) :
    (match dictFind kvs (chars "interview_order") with
     | some (.ydict _) => true
     | _ => labelShapeOk kvs) = true := by
  unfold orEmptyDict at hd
  cases ht : truthy v with
  | false =>
    rw [ht] at hd
    simp only [Bool.false_eq_true, if_false] at hd
    injection hd with hd
    subst hd
    decide
  | true =>
    rw [ht] at hd
    simp only [if_pos rfl] at hd
    subst hd
    unfold blockSafe at hs
    rw [ht] at hs
    simpa using hs

theorem analyzeChunk_ok_of_safe {parse : Str → Except Str Yaml} {p : Nat}
    {c : Str} {v : Yaml} (hv : parse c = .ok v) (hs : blockSafe v = true) :
    ∃ a, analyzeChunk parse p c = .ok a := by
  obtain ⟨kvs, hd⟩ := safe_dict hs
  have hio := block_safe_shape hs hd
  unfold analyzeChunk
  rw [hv]
  simp only []
  rw [hd, guess_dict_eq]
  simp only []
  obtain ⟨l, hl⟩ := label_ok_of_safe c hio
  rw [hl]
  simp only [pyGet]
  by_cases hdict : isDict ((dictFind kvs (chars "interview_order")).getD .ynull) = true
  · cases hf : dictFind kvs (chars "interview_order") with
    | none =>
      rw [hf] at hdict
      simp [isDict] at hdict
    | some io =>
      rw [hf] at hdict
      simp only [Option.getD_some] at hdict
      cases io with
      | ydict m =>
        exact ⟨_, rfl⟩
      | ynull => simp [isDict] at hdict
      | ybool b => simp [isDict] at hdict
      | yint n => simp [isDict] at hdict
      | yfloat q => simp [isDict] at hdict
      | ystr s => simp [isDict] at hdict
      | ylist xs => simp [isDict] at hdict
      | yother => simp [isDict] at hdict
  · rw [if_neg hdict]
    exact ⟨_, rfl⟩

theorem analyzeGo_ok_of_safe {parse : Str → Except Str Yaml} :
    ∀ (chunks : List Str) (p : Nat),
      (∀ c ∈ chunks, ∃ v, parse c = .ok v ∧ blockSafe v = true) →
      ∃ res, analyzeGo parse p chunks = .ok res := by
  intro chunks
  induction chunks with
  | nil => intro p _; exact ⟨[], rfl⟩
  | cons c rest ih =>
    intro p hsafe
    obtain ⟨v, hv, hsv⟩ := hsafe c (List.mem_cons_self _ _)
    obtain ⟨a, ha⟩ := @analyzeChunk_ok_of_safe parse p _ _ hv hsv
    obtain ⟨tail, htail⟩ := ih (p + 1) (fun c' hc' => hsafe c' (List.mem_cons_of_mem _ hc'))
    exact ⟨a :: tail, by simp [analyzeGo, bind, Except.bind, ha, htail, pure, Except.pure]⟩

theorem analyzeGo_first_decode {parse : Str → Except Str Yaml} :
    ∀ (chunks : List Str) (p i : Nat) (d : Str) (c : Str),
      chunks[i]? = some c → parse c = .error d →
      (∀ j, j < i → ∀ cj, chunks[j]? = some cj →
        ∃ v, parse cj = .ok v ∧ blockSafe v = true) →
      analyzeGo parse p chunks = .error (.decodeError (p + i) d) := by
  intro chunks
  induction chunks with
  | nil => intro p i d c hc; simp at hc
  | cons c0 rest ih =>
    intro p i d c hc hd hsafe
    cases i with
    | zero =>
      simp only [List.getElem?_cons_zero] at hc
      injection hc with hc
      subst hc
      simp only [analyzeGo, bind, Except.bind]
      have hch : analyzeChunk parse p c0 = .error (.decodeError p d) := by
        unfold analyzeChunk
        rw [hd]
      rw [hch]
      simp
    | succ j =>
      simp only [List.getElem?_cons_succ] at hc
      obtain ⟨v, hv, hsv⟩ := hsafe 0 (by omega) c0 (by simp)
      obtain ⟨a, ha⟩ := @analyzeChunk_ok_of_safe parse p _ _ hv hsv
      have ihr := ih (p + 1) j d c hc hd (fun j' hj' cj hcj =>
        hsafe (j' + 1) (by omega) cj (by simpa using hcj))
      simp only [analyzeGo, bind, Except.bind, ha, ihr]
      rw [show p + 1 + j = p + (j + 1) by omega]

theorem analyzeChunk_decode {parse : Str → Except Str Yaml} {p : Nat} {c : Str}
    {q : Nat} {d : Str} (h : analyzeChunk parse p c = .error (.decodeError q d)) :
    q = p ∧ parse c = .error d := by
  unfold analyzeChunk at h
  cases hv : parse c with
  | error diag =>
    rw [hv] at h
    injection h with h
    injection h with h1 h2
    exact ⟨h1.symm, by rw [h2]⟩
  | ok v =>
    rw [hv] at h
    exfalso
    repeat first
    | exact Except.noConfusion h
    | (injection h with h; exact absurd h (by simp))
    | (simp only [] at h)
    | (split at h)

theorem analyzeGo_decode_sound {parse : Str → Except Str Yaml} :
    ∀ (chunks : List Str) (p q : Nat) (d : Str),
      analyzeGo parse p chunks = .error (.decodeError q d) →
      ∃ j c, q = p + j ∧ chunks[j]? = some c ∧ parse c = .error d := by
  intro chunks
  induction chunks with
  | nil => intro p q d h; cases h
  | cons c0 rest ih =>
    intro p q d h
    simp only [analyzeGo, bind, Except.bind] at h
    cases he : analyzeChunk parse p c0 with
    | error e =>
      rw [he] at h
      injection h with h
      subst h
      obtain ⟨h1, h2⟩ := analyzeChunk_decode he
      exact ⟨0, c0, by omega, by simp, h2⟩
    | ok a =>
      rw [he] at h
      cases hr : analyzeGo parse (p + 1) rest with
      | error e2 =>
        rw [hr] at h
        injection h with h
        subst h
        obtain ⟨j, c, hq, hc, hd⟩ := ih (p + 1) q d hr
        exact ⟨j + 1, c, by omega, by simpa using hc, hd⟩
      | ok tail => rw [hr] at h; exact Except.noConfusion h

/-- C2 counterexample: the document `5` has a single segment that decodes
successfully (to the integer `5`), yet `analyze_blocks` raises a `TypeError`
rather than returning normally, refuting the claimed equivalence. -/
theorem label_shape_false {kvs : List (Yaml × Yaml)} (h : labelShapeOk kvs = false) :
    (guessSpec kvs = chars "metadata" ∧
      ∃ m, dictFind kvs (chars "metadata") = some m ∧
        truthy m = true ∧ isDict m = false) ∨
    (guessSpec kvs = chars "question" ∧
      dictFind kvs (chars "question") = some (.ystr [])) ∨
    (guessSpec kvs = chars "attachment" ∧
      ∃ m, dictFind kvs (chars "attachment") = some m ∧
        truthy m = true ∧ isDict m = false) := by
  unfold labelShapeOk at h
  simp only [] at h
  by_cases h1 : (guessSpec kvs == chars "metadata") = true
  · rw [if_pos h1] at h
    left
    refine ⟨eq_of_beq h1, ?_⟩
    cases hf : dictFind kvs (chars "metadata") with
    | none => simp only [hf] at h; cases h
    | some m =>
      simp only [hf] at h
      simp only [Bool.or_eq_false_iff, Bool.not_eq_false'] at h
      exact ⟨m, rfl, h.1, h.2⟩
  · rw [if_neg h1] at h
    by_cases h2 : (guessSpec kvs == chars "question") = true
    · rw [if_pos h2] at h
      right
      left
      refine ⟨eq_of_beq h2, ?_⟩
      cases hf : dictFind kvs (chars "question") with
      | none => simp only [hf] at h; cases h
      | some qv =>
        simp only [hf] at h
        cases qv with
        | ystr sq =>
          simp only [Bool.not_eq_false'] at h
          cases sq with
          | nil => rfl
          | cons c0 t0 => cases h
        | ynull => cases h
        | ybool b => cases h
        | yint n => cases h
        | yfloat q => cases h
        | ylist xs => cases h
        | ydict m => cases h
        | yother => cases h
    · rw [if_neg h2] at h
      by_cases h3 : (guessSpec kvs == chars "attachment") = true
      · rw [if_pos h3] at h
        right
        right
        refine ⟨eq_of_beq h3, ?_⟩
        cases hf : dictFind kvs (chars "attachment") with
        | none => simp only [hf] at h; cases h
        | some m =>
          simp only [hf] at h
          simp only [Bool.or_eq_false_iff, Bool.not_eq_false'] at h
          exact ⟨m, rfl, h.1, h.2⟩
      · rw [if_neg h3] at h
        cases h

theorem label_err_of_illshaped (c : Str) {kvs : List (Yaml × Yaml)}
    (hio : (match dictFind kvs (chars "interview_order") with
            | some (.ydict _) => true
            | _ => labelShapeOk kvs) = false) :
    ∃ e, _label_for_block (guessSpec kvs) (.ydict kvs) c = .error e := by
  have hiond : isDict ((dictFind kvs (chars "interview_order")).getD .ynull) = false := by
    cases hf : dictFind kvs (chars "interview_order") with
    | none => rfl
    | some io =>
      simp only [hf] at hio
      cases io with
      | ydict m => cases hio
      | ynull => rfl
      | ybool b => rfl
      | yint n => rfl
      | yfloat q => rfl
      | ystr s2 => rfl
      | ylist xs => rfl
      | yother => rfl
  have hlso : labelShapeOk kvs = false := by
    cases hf : dictFind kvs (chars "interview_order") with
    | none => simpa only [hf] using hio
    | some io =>
      simp only [hf] at hio
      cases io with
      | ydict m => cases hio
      | ynull => exact hio
      | ybool b => exact hio
      | yint n => exact hio
      | yfloat q => exact hio
      | ystr s2 => exact hio
      | ylist xs => exact hio
      | yother => exact hio
  rcases label_shape_false hlso with
    ⟨hbt, m, hf, htr, hnd⟩ | ⟨hbt, hf⟩ | ⟨hbt, m, hf, htr, hnd⟩
  · refine ⟨.attributeError, ?_⟩
    rw [hbt]
    unfold _label_for_block
    have hclc : codeLabelCheck (chars "metadata") (.ydict kvs) c = .ok none := by
      unfold codeLabelCheck
      rw [if_neg (by decide)]
      rfl
    simp only [pyGet, bind, Except.bind, pure, Except.pure, hclc]
    rw [if_neg (by simp [hiond])]
    rw [if_pos (by decide)]
    simp only [hf, Option.getD_some]
    have hoed : orEmptyDict m = m := by
      unfold orEmptyDict
      rw [if_pos htr]
    rw [hoed]
    cases m with
    | ydict mk => rw [show isDict (Yaml.ydict mk) = true from rfl] at hnd; cases hnd
    | ynull => rfl
    | ybool b => rfl
    | yint n => rfl
    | yfloat q => rfl
    | ystr s2 => rfl
    | ylist xs => rfl
    | yother => rfl
  · refine ⟨.indexError, ?_⟩
    rw [hbt]
    unfold _label_for_block
    have hclc : codeLabelCheck (chars "question") (.ydict kvs) c = .ok none := by
      unfold codeLabelCheck
      rw [if_neg (by decide)]
      rfl
    simp only [pyGet, bind, Except.bind, pure, Except.pure, hclc]
    rw [if_neg (by simp [hiond])]
    rw [if_neg (by decide), if_pos (by decide)]
    simp only [hf, Option.getD_some]
    rfl
  · refine ⟨.attributeError, ?_⟩
    rw [hbt]
    unfold _label_for_block
    have hclc : codeLabelCheck (chars "attachment") (.ydict kvs) c = .ok none := by
      unfold codeLabelCheck
      rw [if_neg (by decide)]
      rfl
    simp only [pyGet, bind, Except.bind, pure, Except.pure, hclc]
    rw [if_neg (by simp [hiond])]
    rw [if_neg (by decide), if_neg (by decide), if_neg (by decide), if_pos (by decide)]
    simp only [hf, Option.getD_some]
    have hoed : orEmptyDict m = m := by
      unfold orEmptyDict
      rw [if_pos htr]
    rw [hoed]
    cases m with
    | ydict mk => rw [show isDict (Yaml.ydict mk) = true from rfl] at hnd; cases hnd
    | ynull => rfl
    | ybool b => rfl
    | yint n => rfl
    | yfloat q => rfl
    | ystr s2 => rfl
    | ylist xs => rfl
    | yother => rfl

theorem guessGo_ok_of_contains {data : Yaml}
    (hP : ∀ k, ∃ b, pyContains k data = .ok b) :
    ∀ cands, ∃ r, guessGo cands data = .ok r := by
  intro cands
  induction cands with
  | nil => exact ⟨none, rfl⟩
  | cons c0 rest ih =>
    obtain ⟨b, hb⟩ := hP c0
    obtain ⟨r, hr⟩ := ih
    simp only [guessGo, bind, Except.bind, hb]
    cases b with
    | true => exact ⟨some c0, by rw [if_pos rfl]; rfl⟩
    | false => exact ⟨r, by rw [if_neg (by simp)]; exact hr⟩

theorem guess_ok_of_contains {data : Yaml}
    (hP : ∀ k, ∃ b, pyContains k data = .ok b) :
    ∃ bt, _guess_block_type data = .ok bt := by
  obtain ⟨r, hr⟩ := guessGo_ok_of_contains hP BLOCK_TYPES
  unfold _guess_block_type
  simp only [bind, Except.bind, hr]
  cases r with
  | some t => exact ⟨t, rfl⟩
  | none =>
    obtain ⟨b, hb⟩ := hP (chars "question")
    simp only [hb]
    cases b with
    | true => exact ⟨chars "question", by rw [if_pos rfl]; rfl⟩
    | false => exact ⟨chars "code", by rw [if_neg (by simp)]; rfl⟩

theorem guess_err_int (n : Int) : _guess_block_type (.yint n) = .error .typeError := rfl

theorem guess_err_bool (b : Bool) :
    _guess_block_type (.ybool b) = .error .typeError := rfl

theorem guess_err_float (q : ℚ) :
    _guess_block_type (.yfloat q) = .error .typeError := rfl

theorem guess_err_other : _guess_block_type .yother = .error .typeError := rfl

theorem label_err_str (bt : Str) (s2 : Str) (c : Str) :
    _label_for_block bt (.ystr s2) c = .error .attributeError := rfl

theorem label_err_list (bt : Str) (xs : List Yaml) (c : Str) :
    _label_for_block bt (.ylist xs) c = .error .attributeError := rfl

theorem analyzeChunk_err_of_illshaped {parse : Str → Except Str Yaml} {p : Nat}
    {c : Str} {v : Yaml} (hv : parse c = .ok v) (hs : blockSafe v = false) :
    ∃ e, analyzeChunk parse p c = .error (.pyErr e) := by
  have ht : truthy v = true := by
    cases htv : truthy v with
    | true => rfl
    | false =>
      exfalso
      unfold blockSafe at hs
      rw [htv] at hs
      simp at hs
  have hdata : orEmptyDict v = v := by
    unfold orEmptyDict
    rw [if_pos ht]
  unfold analyzeChunk
  rw [hv]
  simp only []
  rw [hdata]
  cases v with
  | ydict kvs =>
    have hm : (match dictFind kvs (chars "interview_order") with
               | some (.ydict _) => true
               | _ => labelShapeOk kvs) = false := by
      unfold blockSafe at hs
      rw [ht] at hs
      simpa using hs
    obtain ⟨e, he⟩ := label_err_of_illshaped c hm
    refine ⟨e, ?_⟩
    rw [guess_dict_eq]
    simp only []
    rw [he]
  | ystr s2 =>
    obtain ⟨bt, hbt⟩ :=
      @guess_ok_of_contains (.ystr s2) (fun k => ⟨isSubstr k s2, rfl⟩)
    refine ⟨.attributeError, ?_⟩
    rw [hbt]
    simp only []
    rw [label_err_str]
  | ylist xs =>
    obtain ⟨bt, hbt⟩ :=
      @guess_ok_of_contains (.ylist xs) (fun k => ⟨xs.any (fun x => isStrKey x k), rfl⟩)
    refine ⟨.attributeError, ?_⟩
    rw [hbt]
    simp only []
    rw [label_err_list]
  | yint n => exact ⟨.typeError, by rw [guess_err_int]⟩
  | ybool b => exact ⟨.typeError, by rw [guess_err_bool]⟩
  | yfloat q => exact ⟨.typeError, by rw [guess_err_float]⟩
  | yother => exact ⟨.typeError, by rw [guess_err_other]⟩
  | ynull => exact Bool.noConfusion ht

theorem analyzeGo_err_sound {parse : Str → Except Str Yaml} :
    ∀ (chunks : List Str) (p : Nat) (e : AnalyzeErr),
      analyzeGo parse p chunks = .error e →
      ∃ c ∈ chunks,
        (∃ d, parse c = .error d) ∨
        (∃ v, parse c = .ok v ∧ blockSafe v = false) := by
  intro chunks
  induction chunks with
  | nil => intro p e h; exact Except.noConfusion h
  | cons c0 rest ih =>
    intro p e h
    simp only [analyzeGo, bind, Except.bind] at h
    cases hac : analyzeChunk parse p c0 with
    | error e0 =>
      refine ⟨c0, List.mem_cons_self _ _, ?_⟩
      cases hp : parse c0 with
      | error d => exact Or.inl ⟨d, rfl⟩
      | ok v =>
        right
        refine ⟨v, rfl, ?_⟩
        cases hbs : blockSafe v with
        | true =>
          obtain ⟨a, ha⟩ := @analyzeChunk_ok_of_safe parse p _ _ hp hbs
          rw [ha] at hac
          exact Except.noConfusion hac
        | false => rfl
    | ok a =>
      rw [hac] at h
      cases hr : analyzeGo parse (p + 1) rest with
      | error e1 =>
        obtain ⟨c1, hc1, hbad⟩ := ih (p + 1) e1 hr
        exact ⟨c1, List.mem_cons_of_mem _ hc1, hbad⟩
      | ok tail =>
        rw [hr] at h
        exact Except.noConfusion h

theorem analyzeGo_err_complete {parse : Str → Except Str Yaml} :
    ∀ (chunks : List Str) (p : Nat) (c : Str), c ∈ chunks →
      ((∃ d, parse c = .error d) ∨
        (∃ v, parse c = .ok v ∧ blockSafe v = false)) →
      ∃ e, analyzeGo parse p chunks = .error e := by
  intro chunks
  induction chunks with
  | nil => intro p c hc; exact absurd hc (List.not_mem_nil c)
  | cons c0 rest ih =>
    intro p c hc hbad
    rcases List.mem_cons.mp hc with rfl | hc2
    · have herr : ∃ e0, analyzeChunk parse p c = .error e0 := by
        rcases hbad with ⟨d, hd⟩ | ⟨v, hv, hbs⟩
        · refine ⟨.decodeError p d, ?_⟩
          unfold analyzeChunk
          rw [hd]
        · obtain ⟨e0, he0⟩ := @analyzeChunk_err_of_illshaped parse p _ _ hv hbs
          exact ⟨.pyErr e0, he0⟩
      obtain ⟨e0, he0⟩ := herr
      exact ⟨e0, by simp only [analyzeGo, bind, Except.bind, he0]⟩
    · cases hac : analyzeChunk parse p c0 with
      | error e0 =>
        exact ⟨e0, by simp only [analyzeGo, bind, Except.bind, hac]⟩
      | ok a =>
        obtain ⟨e1, he1⟩ := ih (p + 1) c hc2 hbad
        exact ⟨e1, by simp only [analyzeGo, bind, Except.bind, hac, he1]⟩

theorem c2_analyze_decode_counterexample :
    _split_blocks docFive = [chars "5"] ∧
    parseFix (chars "5") = .ok (.yint 5) ∧
    analyze_blocks parseFix docFive = .error (.pyErr .typeError) := ⟨rfl, rfl, rfl⟩

/-- C2 (amended): `analyze_blocks` raises an error if and only if some
segment fails to decode or decodes to an ill-shaped value (`blockSafe` false:
a truthy non-mapping, or a mapping without a mapping-valued `interview_order`
key whose classified type exposes an ill-shaped payload — a truthy
non-mapping `metadata`/`attachment` payload or an empty-string `question`
value, each only when the block classifies to that type); it returns normally
whenever every segment decodes to a well-shaped value; when the first
offending segment is a decode failure it raises the `ValueError` carrying
that segment's index and the decoder's diagnostic; and every decode error it
raises faithfully names a segment whose text failed to decode, with its
diagnostic. -/
theorem c2_analyze_decode :
    (∀ (parse : Str → Except Str Yaml) (doc : Str),
      (∃ e, analyze_blocks parse doc = .error e) ↔
        ∃ c ∈ _split_blocks doc,
          (∃ d, parse c = .error d) ∨
          (∃ v, parse c = .ok v ∧ blockSafe v = false)) ∧
    (∀ (parse : Str → Except Str Yaml) (doc : Str),
      (∀ c ∈ _split_blocks doc, ∃ v, parse c = .ok v ∧ blockSafe v = true) →
      ∃ res, analyze_blocks parse doc = .ok res) ∧
    (∀ (parse : Str → Except Str Yaml) (doc : Str) (i : Nat) (d : Str) (c : Str),
      (_split_blocks doc)[i]? = some c → parse c = .error d →
      (∀ j, j < i → ∀ cj, (_split_blocks doc)[j]? = some cj →
        ∃ v, parse cj = .ok v ∧ blockSafe v = true) →
      analyze_blocks parse doc = .error (.decodeError i d)) ∧
    (∀ (parse : Str → Except Str Yaml) (doc : Str) (i : Nat) (d : Str),
      analyze_blocks parse doc = .error (.decodeError i d) →
      ∃ c, (_split_blocks doc)[i]? = some c ∧ parse c = .error d) := by
  refine ⟨?_, ?_, ?_, ?_⟩
  · intro parse doc
    constructor
    · rintro ⟨e, he⟩
      exact analyzeGo_err_sound (_split_blocks doc) 0 e he
    · rintro ⟨c, hc, hbad⟩
      exact analyzeGo_err_complete (_split_blocks doc) 0 c hc hbad
  · intro parse doc hsafe
    exact analyzeGo_ok_of_safe (_split_blocks doc) 0 hsafe
  · intro parse doc i d c hc hd hsafe
    have := analyzeGo_first_decode (_split_blocks doc) 0 i d c hc hd hsafe
    simpa using this
  · intro parse doc i d h
    obtain ⟨j, c, hq, hc, hd⟩ := analyzeGo_decode_sound (_split_blocks doc) 0 i d h
    have : j = i := by omega
    subst this
    exact ⟨c, hc, hd⟩

/-- C2 witness: the scalar fixture raises by the iff, the two-block fixture
analyzes successfully, and the malformed fixture yields the indexed decode
error. -/
theorem c2_analyze_decode_witness :
    (∃ e, analyze_blocks parseFix docFive = .error e) ∧
    (∃ res, analyze_blocks parseFix docTwoBlocks = .ok res) ∧
    analyze_blocks parseFix docBadYaml =
      .error (.decodeError 0 (chars "expected the node content, but found end of stream")) := by
  refine ⟨?_, ?_, ?_⟩
  · exact (c2_analyze_decode.1 parseFix docFive).mpr
      ⟨chars "5", by decide, Or.inr ⟨.yint 5, rfl, by decide⟩⟩
  · apply c2_analyze_decode.2.1 parseFix docTwoBlocks
    intro c hc
    have hsplit : _split_blocks docTwoBlocks = [chars "question: Hi", chars "code: x"] := by
      decide
    rw [hsplit] at hc
    rcases List.mem_cons.mp hc with rfl | hc2
    · exact ⟨_, rfl, by decide⟩
    · rcases List.mem_singleton.mp hc2 with rfl
      exact ⟨_, rfl, by decide⟩
  · exact c2_analyze_decode.2.2.1 parseFix docBadYaml 0 _ _ rfl rfl (fun j hj => by omega)

theorem iter_blocks_dicts {parse : Str → Except Str Yaml} {doc : Str}
    (hsafe : ∀ c ∈ _split_blocks doc, ∀ v, parse c = .ok v → iterSafe v = true) :
    ∀ b ∈ iter_blocks parse doc, ∃ kvs, b = .ydict kvs := by
  intro b hb
  unfold iter_blocks at hb
  obtain ⟨c, hc, hf⟩ := List.mem_filterMap.mp hb
  cases hv : parse c with
  | error e => rw [hv] at hf; cases hf
  | ok v =>
    rw [hv] at hf
    injection hf with hf
    obtain ⟨kvs, hkvs⟩ := or_empty_dict_safe (hsafe c hc v hv)
    exact ⟨kvs, by rw [← hf, hkvs]⟩

theorem iter_blocks_fields_safe {parse : Str → Except Str Yaml} {doc : Str}
    (hsafe : ∀ c ∈ _split_blocks doc, ∀ v, parse c = .ok v → fieldsSafe v = true) :
    ∀ b ∈ iter_blocks parse doc, fieldsSafe b = true := by
  intro b hb
  unfold iter_blocks at hb
  obtain ⟨c, hc, hf⟩ := List.mem_filterMap.mp hb
  cases hv : parse c with
  | error e => rw [hv] at hf; cases hf
  | ok v =>
    rw [hv] at hf
    injection hf with hf
    rw [← hf]
    have hv2 := hsafe c hc v hv
    unfold orEmptyDict
    by_cases ht : truthy v = true
    · rw [if_pos ht]
      exact hv2
    · rw [if_neg ht]
      rfl

theorem varsPass1_ok {astParse : Str → Option (List AstAssign)} :
    ∀ (blocks : List Yaml), (∀ b ∈ blocks, ∃ kvs, b = .ydict kvs) →
      ∀ vars, ∃ r, varsPass1 astParse blocks vars = .ok r := by
  intro blocks
  induction blocks with
  | nil => intro _ vars; exact ⟨vars, rfl⟩
  | cons b rest ih =>
    intro hd vars
    obtain ⟨kvs, hkvs⟩ := hd b (List.mem_cons_self _ _)
    subst hkvs
    simp only [varsPass1, pyContains]
    cases hc : kvs.any (fun kv => isStrKey kv.1 (chars "code")) with
    | false =>
      simp only [Bool.false_eq_true, if_false]
      exact ih (fun b' hb' => hd b' (List.mem_cons_of_mem _ hb')) vars
    | true =>
      simp only [if_pos rfl, pySubscript]
      rw [any_key_eq_isSome] at hc
      cases hf : dictFind kvs (chars "code") with
      | none => rw [hf] at hc; cases hc
      | some cv =>
        cases cv <;>
          exact ih (fun b' hb' => hd b' (List.mem_cons_of_mem _ hb')) _

theorem fieldsFold_ok :
    ∀ (fields : List Yaml), fields.all fieldDeclSafe = true →
      ∀ vars, ∃ r, fieldsFold fields vars = .ok r := by
  intro fields
  induction fields with
  | nil => intro _ vars; exact ⟨vars, rfl⟩
  | cons f fs ih =>
    intro hall vars
    simp only [List.all_cons, Bool.and_eq_true] at hall
    obtain ⟨hf, hfs⟩ := hall
    unfold fieldDeclSafe at hf
    simp only [fieldsFold]
    cases hfd : fieldDecl f with
    | error e => simp only [hfd] at hf; cases hf
    | ok o =>
      cases o with
      | none => exact ih hfs vars
      | some p =>
        cases p with
        | mk name ty => exact ih hfs (dictSet vars name ty)

theorem varsPass2_ok :
    ∀ (blocks : List Yaml), (∀ b ∈ blocks, ∃ kvs, b = .ydict kvs) →
      (∀ b ∈ blocks, fieldsSafe b = true) →
      ∀ vars, ∃ r, varsPass2 blocks vars = .ok r := by
  intro blocks
  induction blocks with
  | nil => intro _ _ vars; exact ⟨vars, rfl⟩
  | cons b rest ih =>
    intro hd hfsafe vars
    obtain ⟨kvs, hkvs⟩ := hd b (List.mem_cons_self _ _)
    subst hkvs
    have ihr := ih (fun b' hb' => hd b' (List.mem_cons_of_mem _ hb'))
      (fun b' hb' => hfsafe b' (List.mem_cons_of_mem _ hb'))
    simp only [varsPass2, pyContains]
    cases hc : kvs.any (fun kv => isStrKey kv.1 (chars "fields")) with
    | false =>
      simp only [Bool.false_eq_true, if_false]
      exact ihr vars
    | true =>
      simp only [if_pos rfl, pySubscript]
      rw [any_key_eq_isSome] at hc
      cases hf : dictFind kvs (chars "fields") with
      | none => rw [hf] at hc; cases hc
      | some fv =>
        cases fv with
        | ylist fields =>
          have hsafe := hfsafe _ (List.mem_cons_self _ _)
          simp only [fieldsSafe, hf] at hsafe
          obtain ⟨r0, hr0⟩ := fieldsFold_ok fields hsafe vars
          obtain ⟨r1, hr1⟩ := ihr r0
          refine ⟨r1, ?_⟩
          show (match fieldsFold fields vars with
            | .error e => Except.error e
            | .ok vars2 => varsPass2 rest vars2) = .ok r1
          rw [hr0]
          exact hr1
        | ynull => exact ihr _
        | ybool b2 => exact ihr _
        | yint n => exact ihr _
        | yfloat q => exact ihr _
        | ystr s2 => exact ihr _
        | ydict kvs2 => exact ihr _
        | yother => exact ihr _

theorem firstFieldsGo_ok :
    ∀ (blocks : List Yaml), (∀ b ∈ blocks, ∃ kvs, b = .ydict kvs) →
      ∃ r, firstFieldsGo blocks = .ok r := by
  intro blocks
  induction blocks with
  | nil => exact fun _ => ⟨[], rfl⟩
  | cons b rest ih =>
    intro hd
    obtain ⟨kvs, hkvs⟩ := hd b (List.mem_cons_self _ _)
    subst hkvs
    have ihr := ih (fun b' hb' => hd b' (List.mem_cons_of_mem _ hb'))
    obtain ⟨r, hr⟩ := ihr
    simp only [firstFieldsGo, pyContains]
    cases hc : kvs.any (fun kv => isStrKey kv.1 (chars "fields")) with
    | false => simp only [Bool.not_true, Bool.not_false, if_pos rfl]; exact ⟨r, hr⟩
    | true =>
      simp only [Bool.not_true, Bool.false_eq_true, if_false, pySubscript]
      rw [any_key_eq_isSome] at hc
      cases hf : dictFind kvs (chars "fields") with
      | none => rw [hf] at hc; cases hc
      | some fv =>
        cases fv with
        | ylist fields =>
          cases fields with
          | nil => exact ⟨r, hr⟩
          | cons f frest =>
            simp only [pyGet]
            cases f with
            | ydict fkvs =>
              cases fkvs with
              | nil => exact ⟨r, hr⟩
              | cons kv0 fkrest =>
                cases kv0 with
                | mk k0 v0 =>
                  cases v0 <;> first
                  | (exact ⟨r, hr⟩)
                  | (exact ⟨_, by simp only [bind, Except.bind, hr]; rfl⟩)
            | ynull => exact ⟨r, hr⟩
            | ybool b2 => exact ⟨r, hr⟩
            | yint n => exact ⟨r, hr⟩
            | yfloat q => exact ⟨r, hr⟩
            | ystr s => exact ⟨r, hr⟩
            | ylist xs => exact ⟨r, hr⟩
            | yother => exact ⟨r, hr⟩
        | ynull => exact ⟨r, hr⟩
        | ybool b2 => exact ⟨r, hr⟩
        | yint n => exact ⟨r, hr⟩
        | yfloat q => exact ⟨r, hr⟩
        | ystr s => exact ⟨r, hr⟩
        | ydict kvs2 => exact ⟨r, hr⟩
        | yother => exact ⟨r, hr⟩

theorem valSafe_block {v : Yaml} (h : valSafe v = true) : blockSafe v = true := by
  unfold valSafe at h
  exact (Bool.and_elim_left h)

theorem analyzeGo_no_pyerr {parse : Str → Except Str Yaml} :
    ∀ (chunks : List Str) (p : Nat) (e : PyErr),
      (∀ c ∈ chunks, ∀ v, parse c = .ok v → blockSafe v = true) →
      analyzeGo parse p chunks ≠ .error (.pyErr e) := by
  intro chunks
  induction chunks with
  | nil => intro p e _ h; cases h
  | cons c0 rest ih =>
    intro p e hsafe h
    simp only [analyzeGo, bind, Except.bind] at h
    cases hv : parse c0 with
    | error d =>
      have hch : analyzeChunk parse p c0 = .error (.decodeError p d) := by
        unfold analyzeChunk
        rw [hv]
      rw [hch] at h
      injection h with h
      exact AnalyzeErr.noConfusion h
    | ok v =>
      obtain ⟨a, ha⟩ :=
        @analyzeChunk_ok_of_safe parse p _ _ hv (hsafe c0 (List.mem_cons_self _ _) v hv)
      rw [ha] at h
      cases hr : analyzeGo parse (p + 1) rest with
      | error e2 =>
        rw [hr] at h
        injection h with h
        subst h
        exact ih (p + 1) e (fun c' hc' => hsafe c' (List.mem_cons_of_mem _ hc')) hr
      | ok tail => rw [hr] at h; exact Except.noConfusion h

theorem mandLoop_ok_of_safe {parse : Str → Except Str Yaml} :
    ∀ (chunks : List Str),
      (∀ c ∈ chunks, ∀ v, parse c = .ok v → valSafe v = true) →
      ∀ seen, ∃ msgs, mandLoop parse chunks seen = .ok msgs := by
  intro chunks
  induction chunks with
  | nil => intro _ seen; exact ⟨[], rfl⟩
  | cons c0 rest ih =>
    intro hsafe seen
    have ihr := ih (fun c' hc' => hsafe c' (List.mem_cons_of_mem _ hc'))
    simp only [mandLoop, bind, Except.bind]
    cases hv : parse c0 with
    | error d =>
      obtain ⟨msgs, hm⟩ := ihr seen
      rw [hm]
      exact ⟨_, rfl⟩
    | ok v =>
      simp only []
      have hvs := hsafe c0 (List.mem_cons_self _ _) v hv
      obtain ⟨kvs, hd⟩ := safe_dict (valSafe_block hvs)
      rw [hd]
      simp only [pyContains]
      cases hc : kvs.any (fun kv => isStrKey kv.1 (chars "interview_order")) with
      | false =>
        simp only [Bool.false_eq_true, if_false]
        exact ihr seen
      | true =>
        simp only [if_pos rfl, pySubscript]
        rw [any_key_eq_isSome] at hc
        cases hf : dictFind kvs (chars "interview_order") with
        | none => rw [hf] at hc; cases hc
        | some io =>
          have hio : (!truthy io || isDict io) = true := by
            unfold valSafe at hvs
            have h2 := Bool.and_elim_right hvs
            -- relate the match over `v` with the normalised dict
            unfold orEmptyDict at hd
            cases ht : truthy v with
            | false =>
              rw [ht] at hd
              simp only [Bool.false_eq_true, if_false] at hd
              injection hd with hd
              subst hd
              simp [dictFind] at hf
            | true =>
              rw [ht] at hd
              simp only [if_pos rfl] at hd
              subst hd
              simp only [] at h2
              rw [hf] at h2
              exact h2
          obtain ⟨mk, hmk⟩ := or_empty_dict_safe hio
          simp only []
          rw [hmk]
          simp only [pyGet]
          obtain ⟨msgs, hm⟩ := ihr (seen || _coerce_bool ((dictFind mk (chars "mandatory")).getD .ynull))
          rw [hm]
          simp only [if_pos trivial]
          by_cases hb : (_coerce_bool ((dictFind mk (chars "mandatory")).getD .ynull) && seen) = true
          · rw [if_pos hb]; exact ⟨_, rfl⟩
          · rw [if_neg hb]; exact ⟨_, rfl⟩

/-- C3 counterexample: on `interview_order: hello` (which decodes fine, to a
mapping with a non-mapping `interview_order` value) `validate_document`
raises `AttributeError`, and on `5` both `extract_variables` and
`extract_first_fields` raise `TypeError` — refuting the never-raise claim. -/
theorem c3_never_raises_counterexample :
    parseFix docIOHello =
      .ok (.ydict [(.ystr (chars "interview_order"), .ystr (chars "hello"))]) ∧
    validate_document parseFix docIOHello = .error .attributeError ∧
    extract_variables parseFix astFix docFive = .error .typeError ∧
    extract_first_fields parseFix docFive = .error .typeError ∧
    extract_variables parseFix astFix docFieldsBadDatatype = .error .typeError :=
  ⟨rfl, rfl, rfl, rfl, rfl⟩

/-- C3 (amended): `validate_document` returns an issue list (converting
decode failures into issues) provided every segment that decodes does so to a
well-shaped value whose `interview_order` value is a mapping or falsy
(`valSafe`); `extract_variables` returns a best-effort result provided every
truthy decoded value is a mapping (`iterSafe`) and every field entry's
`datatype` value is hashable (`fieldsSafe`); `extract_first_fields` needs only
`iterSafe`.  Segments decoding outside those shapes can raise dynamic typing
errors (including the unhashable-`datatype` `TypeError` of pass 2), which is
what the original claim missed. -/
theorem c3_never_raises :
    (∀ (parse : Str → Except Str Yaml) (doc : Str),
      (∀ c ∈ _split_blocks doc, ∀ v, parse c = .ok v → valSafe v = true) →
      ∃ issues, validate_document parse doc = .ok issues) ∧
    (∀ (parse : Str → Except Str Yaml) (astParse : Str → Option (List AstAssign))
        (doc : Str),
      (∀ c ∈ _split_blocks doc, ∀ v, parse c = .ok v →
        iterSafe v = true ∧ fieldsSafe v = true) →
      ∃ vars, extract_variables parse astParse doc = .ok vars) ∧
    (∀ (parse : Str → Except Str Yaml) (doc : Str),
      (∀ c ∈ _split_blocks doc, ∀ v, parse c = .ok v → iterSafe v = true) →
      ∃ ffs, extract_first_fields parse doc = .ok ffs) := by
  refine ⟨?_, ?_, ?_⟩
  · intro parse doc hsafe
    unfold validate_document
    cases ha : analyze_blocks parse doc with
    | error e =>
      cases e with
      | decodeError pos diag => exact ⟨_, rfl⟩
      | pyErr e2 =>
        exact absurd ha (analyzeGo_no_pyerr (_split_blocks doc) 0 e2
          (fun c hc v hv => valSafe_block (hsafe c hc v hv)))
    | ok blocks =>
      obtain ⟨msgs, hm⟩ := mandLoop_ok_of_safe (_split_blocks doc) hsafe false
      rw [hm]
      exact ⟨_, rfl⟩
  · intro parse astParse doc hsafe
    unfold extract_variables
    simp only []
    have hdicts := iter_blocks_dicts (fun c hc v hv => (hsafe c hc v hv).1)
    have hfsB := iter_blocks_fields_safe (fun c hc v hv => (hsafe c hc v hv).2)
    obtain ⟨r1, h1⟩ := @varsPass1_ok astParse (iter_blocks parse doc) hdicts []
    rw [h1]
    simp only []
    obtain ⟨r2, h2⟩ := varsPass2_ok (iter_blocks parse doc) hdicts hfsB r1
    rw [h2]
    exact ⟨_, rfl⟩
  · intro parse doc hsafe
    unfold extract_first_fields
    exact firstFieldsGo_ok (iter_blocks parse doc) (iter_blocks_dicts hsafe)

/-- C3 witness: instantiations at the mandatory, code-assignment and
first-field fixture documents. -/
theorem c3_never_raises_witness :
    (∃ issues, validate_document parseFix docTwoMand = .ok issues) ∧
    (∃ vars, extract_variables parseFix astFix docCodeAssign = .ok vars) ∧
    (∃ ffs, extract_first_fields parseFix docFieldsBoth = .ok ffs) := by
  refine ⟨?_, ?_, ?_⟩
  · apply c3_never_raises.1 parseFix docTwoMand
    intro c hc v hv
    have hsplit : _split_blocks docTwoMand =
        [chars "interview_order:\n  mandatory: true",
         chars "interview_order:\n  mandatory: true"] := by decide
    rw [hsplit] at hc
    rcases List.mem_cons.mp hc with rfl | hc2
    · injection hv with hv; subst hv; decide
    · rcases List.mem_singleton.mp hc2 with rfl
      injection hv with hv; subst hv; decide
  · apply c3_never_raises.2.1 parseFix astFix docCodeAssign
    intro c hc v hv
    have hsplit : _split_blocks docCodeAssign = [docCodeAssign] := by decide
    rw [hsplit] at hc
    rcases List.mem_singleton.mp hc with rfl
    injection hv with hv; subst hv; decide
  · apply c3_never_raises.2.2 parseFix docFieldsBoth
    intro c hc v hv
    have hsplit : _split_blocks docFieldsBoth =
        [chars "fields:\n  - name: children[i].name",
         chars "fields:\n  - name: applicant.name"] := by decide
    rw [hsplit] at hc
    rcases List.mem_cons.mp hc with rfl | hc2
    · injection hv with hv; subst hv; decide
    · rcases List.mem_singleton.mp hc2 with rfl
      injection hv with hv; subst hv; decide

theorem strLt_asymm : ∀ {a b : Str}, strLt a b = true → strLt b a = false := by
  intro a
  induction a with
  | nil =>
    intro b h
    cases b with
    | nil => cases h
    | cons c bs => rfl
  | cons c as_ ih =>
    intro b h
    cases b with
    | nil => cases h
    | cons d bs =>
      simp only [strLt] at h ⊢
      by_cases h1 : c < d
      · rw [if_neg (by exact fun hdc => absurd h1 (lt_asymm hdc)),
          if_pos h1]
      · rw [if_neg h1] at h
        by_cases h2 : d < c
        · rw [if_pos h2] at h; cases h
        · rw [if_neg h2] at h
          rw [if_neg h2, if_neg h1]
          exact ih h

theorem strLe_total {a b : Str} (h : strLe a b = false) : strLe b a = true := by
  unfold strLe at h ⊢
  cases hlt : strLt b a with
  | false => rw [hlt] at h; cases h
  | true => rw [strLt_asymm hlt]; rfl

theorem insertVar_mem {x v : VarInfo} : ∀ {l : List VarInfo},
    x ∈ insertVar v l ↔ x = v ∨ x ∈ l := by
  intro l
  induction l with
  | nil => simp [insertVar]
  | cons w ws ih =>
    simp only [insertVar]
    by_cases hc : strLe v.name w.name = true
    · rw [if_pos hc]
      simp [List.mem_cons]
    · rw [if_neg hc]
      simp only [List.mem_cons, ih]
      tauto

theorem insertVar_head {v : VarInfo} : ∀ {l : List VarInfo} {y : VarInfo},
    (insertVar v l).head? = some y → y = v ∨ l.head? = some y := by
  intro l y
  cases l with
  | nil =>
    intro h
    simp only [insertVar, List.head?] at h
    injection h with h
    exact Or.inl h.symm
  | cons w ws =>
    intro h
    simp only [insertVar] at h
    by_cases hc : strLe v.name w.name = true
    · rw [if_pos hc] at h
      simp only [List.head?] at h
      injection h with h
      exact Or.inl h.symm
    · rw [if_neg hc] at h
      simp only [List.head?] at h
      exact Or.inr h

theorem chain'_insertVar {v : VarInfo} :
    ∀ {l : List VarInfo}, List.Chain' (fun a b => strLe a.name b.name = true) l →
      List.Chain' (fun a b => strLe a.name b.name = true) (insertVar v l) := by
  intro l
  induction l with
  | nil => intro _; simp [insertVar]
  | cons w ws ih =>
    intro h
    simp only [insertVar]
    by_cases hc : strLe v.name w.name = true
    · rw [if_pos hc]
      exact List.Chain'.cons hc h
    · rw [if_neg hc]
      have hwv : strLe w.name v.name = true := strLe_total (by simpa using hc)
      have htail := ih (List.Chain'.tail h)
      apply List.chain'_cons'.mpr
      refine ⟨?_, htail⟩
      intro y hy
      rcases insertVar_head hy with rfl | hhead
      · exact hwv
      · exact (List.chain'_cons'.mp h).1 y hhead

theorem sortVars_chain (l : List VarInfo) :
    List.Chain' (fun a b => strLe a.name b.name = true) (sortVars l) := by
  induction l with
  | nil => simp [sortVars]
  | cons v vs ih => exact chain'_insertVar ih

theorem sortVars_mem {x : VarInfo} : ∀ {l : List VarInfo}, x ∈ l → x ∈ sortVars l := by
  intro l
  induction l with
  | nil => intro h; cases h
  | cons v vs ih =>
    intro h
    rcases List.mem_cons.mp h with rfl | h2
    · exact insertVar_mem.mpr (Or.inl rfl)
    · exact insertVar_mem.mpr (Or.inr (ih h2))

theorem dictSet_assoc (k' : Str) :
    ∀ (m : List (Str × Str)) (k v : Str),
      assocFind (dictSet m k v) k' = if k == k' then some v else assocFind m k' := by
  intro m
  induction m with
  | nil => intro k v; rfl
  | cons p rest ih =>
    intro k v
    cases p with
    | mk pk pv =>
      simp only [dictSet]
      by_cases h1 : (pk == k) = true
      · rw [if_pos h1]
        have e1 : pk = k := by simpa using h1
        subst e1
        simp only [assocFind]
        by_cases h2 : (pk == k') = true
        · rw [if_pos h2, if_pos h2]
        · rw [if_neg h2, if_neg h2, if_neg h2]
      · rw [if_neg h1]
        simp only [assocFind]
        by_cases h2 : (pk == k') = true
        · rw [if_pos h2]
          have e2 : pk = k' := by simpa using h2
          have hne : (k == k') = false := by
            have : pk ≠ k := by simpa using h1
            subst e2
            simp only [beq_eq_false_iff_ne]
            exact fun hkk => this hkk.symm
          rw [hne]
          simp only [Bool.false_eq_true, if_false, assocFind, if_pos h2]
        · rw [if_neg h2, ih]
          by_cases h3 : (k == k') = true
          · rw [if_pos h3, if_pos h3]
          · rw [if_neg h3, if_neg h3, if_neg h2]

theorem lastOf_acc (name : Str) :
    ∀ (decls : List (Str × Str)) (acc : Option Str),
      decls.foldl (fun acc p => if p.1 == name then some p.2 else acc) acc =
        match lastOf decls name with
        | some t => some t
        | none => acc := by
  intro decls
  induction decls with
  | nil => intro acc; rfl
  | cons d ds ih =>
    intro acc
    simp only [List.foldl_cons]
    rw [ih]
    have h2 : lastOf (d :: ds) name =
        match lastOf ds name with
        | some t => some t
        | none => if d.1 == name then some d.2 else none := by
      unfold lastOf
      simp only [List.foldl_cons]
      rw [ih]
      rfl
    rw [h2]
    cases hld : lastOf ds name with
    | some t => rfl
    | none =>
      by_cases h : (d.1 == name) = true <;> simp [h]

theorem foldl_dictSet_assoc (name : Str) :
    ∀ (decls : List (Str × Str)) (m0 : List (Str × Str)),
      assocFind (decls.foldl (fun m p => dictSet m p.1 p.2) m0) name =
        match lastOf decls name with
        | some t => some t
        | none => assocFind m0 name := by
  intro decls
  induction decls with
  | nil => intro m0; rfl
  | cons d ds ih =>
    intro m0
    simp only [List.foldl_cons]
    rw [ih]
    have hstep : lastOf (d :: ds) name =
        match lastOf ds name with
        | some t => some t
        | none => if d.1 == name then some d.2 else none := by
      simp only [lastOf, List.foldl_cons]
      exact lastOf_acc name ds _
    rw [hstep]
    cases hl : lastOf ds name with
    | some t => rfl
    | none =>
      rw [dictSet_assoc]
      by_cases h : (d.1 == name) = true <;> simp [h]

theorem mem_of_assocFind {name ty : Str} :
    ∀ {m : List (Str × Str)}, assocFind m name = some ty → (name, ty) ∈ m := by
  intro m
  induction m with
  | nil => intro h; cases h
  | cons p rest ih =>
    intro h
    cases p with
    | mk pk pv =>
      simp only [assocFind] at h
      by_cases hk : (pk == name) = true
      · rw [if_pos hk] at h
        injection h with h
        subst h
        have e : pk = name := by simpa using hk
        subst e
        exact List.mem_cons_self _ _
      · rw [if_neg hk] at h
        exact List.mem_cons_of_mem _ (ih h)

theorem fieldMappedType_ok_eq {kvs : List (Yaml × Yaml)} {ty : Str}
    (h : fieldMappedType kvs = .ok ty) : ty = fieldMappedTypeOk kvs := by
  unfold fieldMappedType at h
  unfold fieldMappedTypeOk
  cases hd : (dictFind kvs (chars "datatype")).getD (.ystr (chars "text")) with
  | ystr d => simp only [hd] at h; injection h with h; exact h.symm
  | ylist xs => simp only [hd] at h; cases h
  | ydict m => simp only [hd] at h; cases h
  | ynull => simp only [hd] at h; injection h with h; exact h.symm
  | ybool b => simp only [hd] at h; injection h with h; exact h.symm
  | yint n => simp only [hd] at h; injection h with h; exact h.symm
  | yfloat q => simp only [hd] at h; injection h with h; exact h.symm
  | yother => simp only [hd] at h; injection h with h; exact h.symm

theorem fieldDecl_ok_eq {f : Yaml} {o : Option (Str × Str)}
    (h : fieldDecl f = .ok o) : o = fieldDeclOk f := by
  cases f with
  | ydict fkvs =>
    cases fkvs with
    | nil => injection h with h; exact h.symm
    | cons kv rest =>
      cases kv with
      | mk k vv =>
        cases vv with
        | ystr vn =>
          cases hm : fieldMappedType ((k, .ystr vn) :: rest) with
          | error e => simp only [fieldDecl, hm] at h; cases h
          | ok ty =>
            simp only [fieldDecl, hm] at h
            injection h with h
            rw [← h]
            show some (vn, ty) = some (vn, fieldMappedTypeOk ((k, .ystr vn) :: rest))
            rw [fieldMappedType_ok_eq hm]
        | ynull => injection h with h; exact h.symm
        | ybool b => injection h with h; exact h.symm
        | yint n => injection h with h; exact h.symm
        | yfloat q => injection h with h; exact h.symm
        | ylist xs => injection h with h; exact h.symm
        | ydict m => injection h with h; exact h.symm
        | yother => injection h with h; exact h.symm
  | ynull => injection h with h; exact h.symm
  | ybool b => injection h with h; exact h.symm
  | yint n => injection h with h; exact h.symm
  | yfloat q => injection h with h; exact h.symm
  | ystr s2 => injection h with h; exact h.symm
  | ylist xs => injection h with h; exact h.symm
  | yother => injection h with h; exact h.symm

theorem fieldsFold_eq :
    ∀ (fields : List Yaml) (vars r : List (Str × Str)),
      fieldsFold fields vars = .ok r →
      r = (fields.filterMap fieldDeclOk).foldl (fun m p => dictSet m p.1 p.2) vars := by
  intro fields
  induction fields with
  | nil =>
    intro vars r h
    injection h with h
    subst h
    rfl
  | cons f fs ih =>
    intro vars r h
    simp only [fieldsFold] at h
    simp only [List.filterMap_cons]
    cases hfd : fieldDecl f with
    | error e => simp only [hfd] at h; cases h
    | ok o =>
      simp only [hfd] at h
      rw [← fieldDecl_ok_eq hfd]
      cases o with
      | none => exact ih vars r h
      | some p =>
        cases p with
        | mk name ty =>
          simp only [List.foldl_cons]
          exact ih (dictSet vars name ty) r h

theorem varsPass2_eq :
    ∀ (blocks : List Yaml) (vars vars' : List (Str × Str)),
      varsPass2 blocks vars = .ok vars' →
      vars' = (fieldDecls blocks).foldl (fun m p => dictSet m p.1 p.2) vars := by
  intro blocks
  induction blocks with
  | nil =>
    intro vars vars' h
    injection h with h
    subst h
    rfl
  | cons b rest ih =>
    intro vars vars' h
    simp only [varsPass2] at h
    have hdecls : fieldDecls (b :: rest) = blockFieldDecls b ++ fieldDecls rest := rfl
    cases b with
    | ydict kvs =>
      simp only [pyContains] at h
      cases hc : kvs.any (fun kv => isStrKey kv.1 (chars "fields")) with
      | false =>
        rw [hc] at h
        simp only [Bool.false_eq_true, if_false] at h
        have hbd : blockFieldDecls (.ydict kvs) = [] := by
          rw [any_key_eq_isSome] at hc
          cases hfind : dictFind kvs (chars "fields") with
          | none => simp [blockFieldDecls, hfind]
          | some fv => rw [hfind] at hc; simp at hc
        rw [hdecls, hbd, List.nil_append]
        exact ih vars vars' h
      | true =>
        rw [hc] at h
        simp only [if_pos rfl, pySubscript] at h
        rw [any_key_eq_isSome] at hc
        cases hfind : dictFind kvs (chars "fields") with
        | none => rw [hfind] at hc; cases hc
        | some fv =>
          simp only [hfind] at h
          have hbd : blockFieldDecls (.ydict kvs) =
              match fv with
              | .ylist fields => fields.filterMap fieldDeclOk
              | _ => [] := by
            cases fv <;> simp [blockFieldDecls, hfind]
          cases fv with
          | ylist fields =>
            rw [hdecls, hbd]
            simp only [List.foldl_append]
            cases hff : fieldsFold fields vars with
            | error e => simp only [hff] at h; cases h
            | ok vars2 =>
              simp only [hff] at h
              have := ih vars2 vars' h
              rw [this, fieldsFold_eq fields vars vars2 hff]
          | ynull => rw [hdecls, hbd, List.nil_append]; exact ih vars vars' h
          | ybool b2 => rw [hdecls, hbd, List.nil_append]; exact ih vars vars' h
          | yint n => rw [hdecls, hbd, List.nil_append]; exact ih vars vars' h
          | yfloat q => rw [hdecls, hbd, List.nil_append]; exact ih vars vars' h
          | ystr s => rw [hdecls, hbd, List.nil_append]; exact ih vars vars' h
          | ydict kvs2 => rw [hdecls, hbd, List.nil_append]; exact ih vars vars' h
          | yother => rw [hdecls, hbd, List.nil_append]; exact ih vars vars' h
    | ystr s =>
      simp only [pyContains] at h
      cases hc : isSubstr (chars "fields") s with
      | false =>
        rw [hc] at h
        simp only [Bool.false_eq_true, if_false] at h
        have hbd : fieldDecls (.ystr s :: rest) = fieldDecls rest := rfl
        rw [hbd]
        exact ih vars vars' h
      | true =>
        rw [hc] at h
        simp only [if_pos rfl, pySubscript] at h
        exact absurd h (by simp)
    | ylist xs =>
      simp only [pyContains] at h
      cases hc : xs.any (fun x => isStrKey x (chars "fields")) with
      | false =>
        rw [hc] at h
        simp only [Bool.false_eq_true, if_false] at h
        have hbd : fieldDecls (.ylist xs :: rest) = fieldDecls rest := rfl
        rw [hbd]
        exact ih vars vars' h
      | true =>
        rw [hc] at h
        simp only [if_pos rfl, pySubscript] at h
        exact absurd h (by simp)
    | ynull => simp [pyContains] at h
    | ybool b2 => simp [pyContains] at h
    | yint n => simp [pyContains] at h
    | yfloat q => simp [pyContains] at h
    | yother => simp [pyContains] at h

/-- C8: the `extract_variables` result is sorted ascending by name, every
name declared by a field entry ends up with the mapped type of its last field
declaration (so field declarations win over the earlier code pass on
collisions), and the claim's code-assignment example evaluates as stated. -/
theorem c8_extract_variables :
    (∀ (parse : Str → Except Str Yaml) (astParse : Str → Option (List AstAssign))
        (doc : Str) (vars : List VarInfo),
      extract_variables parse astParse doc = .ok vars →
      List.Chain' (fun a b => strLe a.name b.name = true) vars ∧
      ∀ name ty, lastFieldType (iter_blocks parse doc) name = some ty →
        (⟨name, ty⟩ : VarInfo) ∈ vars) ∧
    extract_variables parseFix astFix docCodeAssign =
      .ok [⟨chars "x", chars "int"⟩, ⟨chars "y", chars "str"⟩] := by
  constructor
  · intro parse astParse doc vars h
    unfold extract_variables at h
    simp only [] at h
    cases h1 : varsPass1 astParse (iter_blocks parse doc) [] with
    | error e => rw [h1] at h; cases h
    | ok vars1 =>
      rw [h1] at h
      simp only [] at h
      cases h2 : varsPass2 (iter_blocks parse doc) vars1 with
      | error e => rw [h2] at h; cases h
      | ok vars2 =>
        rw [h2] at h
        injection h with h
        subst h
        refine ⟨sortVars_chain _, ?_⟩
        intro name ty hlast
        have hv2 : assocFind vars2 name = some ty := by
          rw [varsPass2_eq _ _ _ h2, foldl_dictSet_assoc]
          unfold lastFieldType at hlast
          rw [hlast]
        have hmem : (name, ty) ∈ vars2 := mem_of_assocFind hv2
        have hmem2 : (⟨name, ty⟩ : VarInfo) ∈ vars2.map (fun p => (⟨p.1, p.2⟩ : VarInfo)) := by
          exact List.mem_map.mpr ⟨(name, ty), hmem, rfl⟩
        exact sortVars_mem hmem2
  · rfl

/-- C8 witness: the fixture where `x` is assigned in code and re-declared by
a `datatype: number` field instantiates the theorem — the field's `float` type
wins. -/
theorem c8_extract_variables_witness :
    List.Chain' (fun a b => strLe a.name b.name = true)
      [(⟨chars "x", chars "float"⟩ : VarInfo), ⟨chars "y", chars "str"⟩] ∧
    (⟨chars "x", chars "float"⟩ : VarInfo) ∈
      [(⟨chars "x", chars "float"⟩ : VarInfo), ⟨chars "y", chars "str"⟩] := by
  have h := c8_extract_variables.1 parseFix astFix docCodeField
    [⟨chars "x", chars "float"⟩, ⟨chars "y", chars "str"⟩] rfl
  exact ⟨h.1, h.2 (chars "x") (chars "float") rfl⟩

theorem wordChar_ne_dot {c : Char} (h : isWordChar c = true) : (c == '.') = false := by
  by_contra hne
  have : c = '.' := by
    cases hc : (c == '.') with
    | true => exact eq_of_beq hc
    | false => exact absurd hc hne
  subst this
  cases h

theorem wordChar_ne_lbracket {c : Char} (h : isWordChar c = true) : c ≠ '[' := by
  intro he
  subst he
  cases h

theorem dottedTail_cons (c : Char) (r : Str) :
    dottedTail (c :: r) =
      if c == '.' then
        (match r with
         | [] => false
         | c' :: r' => isWordChar c' && dottedTail r')
      else isWordChar c && dottedTail r := by
  conv =>
    lhs
    unfold dottedTail
  rfl

theorem dottedTail_word_head :
    ∀ (w : Str), (∀ c ∈ w, isWordChar c = true) →
      ∀ t, dottedTail (w ++ t) = dottedTail t := by
  intro w
  induction w with
  | nil => intro _ t; rfl
  | cons c ws ih =>
    intro hw t
    have hc := hw c (List.mem_cons_self _ _)
    rw [List.cons_append, dottedTail_cons, wordChar_ne_dot hc]
    simp only [Bool.false_eq_true, if_false, hc, Bool.true_and]
    exact ih (fun c' hc' => hw c' (List.mem_cons_of_mem _ hc')) t

theorem dottedTail_path_aux :
    ∀ (n : Nat) (r w : Str), r.length ≤ n → WordStr w → dottedTail r = true →
      DottedPath (w ++ r) := by
  intro n
  induction n with
  | zero =>
    intro r w hlen hw _
    have : r = [] := List.length_eq_zero.mp (Nat.le_zero.mp hlen)
    subst this
    simpa using DottedPath.single hw
  | succ n ih =>
    intro r w hlen hw hr
    cases r with
    | nil => simpa using DottedPath.single hw
    | cons c rs =>
      rw [dottedTail_cons] at hr
      by_cases hc : (c == '.') = true
      · rw [if_pos hc] at hr
        have hceq : c = '.' := eq_of_beq hc
        subst hceq
        cases rs with
        | nil => cases hr
        | cons c2 rs2 =>
          simp only [Bool.and_eq_true] at hr
          have hpath : DottedPath ([c2] ++ rs2) := by
            apply ih rs2 [c2] (by simp only [List.length_cons] at hlen; omega)
            · exact ⟨by simp, by simpa using hr.1⟩
            · exact hr.2
          simpa using DottedPath.dotcons hw hpath
      · rw [if_neg hc] at hr
        simp only [Bool.and_eq_true] at hr
        have : w ++ c :: rs = (w ++ [c]) ++ rs := by simp
        rw [this]
        apply ih rs (w ++ [c]) (by simpa using Nat.le_of_succ_le_succ hlen)
        · refine ⟨by simp, ?_⟩
          intro c' hc'
          rcases List.mem_append.mp hc' with h1 | h2
          · exact hw.2 c' h1
          · rcases List.mem_singleton.mp h2 with rfl
            exact hr.1
        · exact hr.2

theorem isDottedB_path {s : Str} (h : isDottedB s = true) : DottedPath s := by
  cases s with
  | nil => cases h
  | cons c rs =>
    simp only [isDottedB, Bool.and_eq_true] at h
    have := dottedTail_path_aux rs.length rs [c] (le_refl _) ⟨by simp, by simpa using h.1⟩ h.2
    simpa using this

theorem path_ne_nil {s : Str} (h : DottedPath s) : s ≠ [] := by
  cases h with
  | single hw => exact hw.1
  | dotcons hw hrest =>
    rename_i w rest
    cases w with
    | nil => exact absurd rfl hw.1
    | cons c ws => simp

theorem path_isDottedB {s : Str} (h : DottedPath s) : isDottedB s = true := by
  induction h with
  | single hw =>
    rename_i w
    cases w with
    | nil => exact absurd rfl hw.1
    | cons c ws =>
      simp only [isDottedB, Bool.and_eq_true]
      refine ⟨hw.2 c (List.mem_cons_self _ _), ?_⟩
      rw [show ws = ws ++ ([] : Str) by simp,
        dottedTail_word_head ws (fun c' hc' => hw.2 c' (by simp [hc']))]
      rfl
  | dotcons hw hrest ih =>
    rename_i w rest
    cases w with
    | nil => exact absurd rfl hw.1
    | cons c ws =>
      simp only [isDottedB, List.cons_append, Bool.and_eq_true]
      refine ⟨hw.2 c (List.mem_cons_self _ _), ?_⟩
      rw [dottedTail_word_head ws (fun c' hc' => hw.2 c' (List.mem_cons_of_mem _ hc'))]
      rw [dottedTail_cons, if_pos (by rfl)]
      cases hr : rest with
      | nil =>
        subst hr
        exact absurd rfl (path_ne_nil hrest)
      | cons c2 rs2 =>
        subst hr
        simpa [isDottedB] using ih

theorem path_chars {p : Str} (h : DottedPath p) :
    ∀ c ∈ p, isWordChar c = true ∨ c = '.' := by
  induction h with
  | single hw =>
    intro c hc
    exact Or.inl (hw.2 c hc)
  | dotcons hw hrest ih =>
    rename_i w rest
    intro c hc
    rcases List.mem_append.mp hc with h1 | h2
    · exact Or.inl (hw.2 c h1)
    · rcases List.mem_cons.mp h2 with rfl | h3
      · exact Or.inr rfl
      · exact ih c h3

theorem path_not_lbracket {p : Str} (h : DottedPath p) :
    ∀ c ∈ p, (c != '[') = true := by
  intro c hc
  rcases path_chars h c hc with h1 | rfl
  · simpa using wordChar_ne_lbracket h1
  · decide

theorem takeWhile_append_eq (pred : Char → Bool) :
    ∀ (p : Str) (x : Char) (r : Str), (∀ c ∈ p, pred c = true) → pred x = false →
      (p ++ x :: r).takeWhile pred = p ∧ (p ++ x :: r).dropWhile pred = x :: r := by
  intro p
  induction p with
  | nil =>
    intro x r _ hx
    simp [List.takeWhile, List.dropWhile, hx]
  | cons c ps ih =>
    intro x r hp hx
    have hc := hp c (List.mem_cons_self _ _)
    obtain ⟨ht, hd⟩ := ih x r (fun c' hc' => hp c' (List.mem_cons_of_mem _ hc')) hx
    refine ⟨?_, ?_⟩ <;>
      simp [List.takeWhile_cons, List.dropWhile_cons, hc, ht, hd]

theorem matchIterBracket_nil (p : Str) : matchIterBracket p [] = none := rfl

theorem matchIterBracket_one (p : Str) (b : Char) :
    matchIterBracket p [b] = none := rfl

theorem matchIterBracket_two (p : Str) (b x : Char) :
    matchIterBracket p [b, x] = none := rfl

theorem matchIterBracket_long (p : Str) (b x c : Char) (t : Str) :
    matchIterBracket p (b :: x :: c :: t) =
      if b == '[' && c == ']' && isIterChar x && isDottedB p then
        matchIterSuffix p t
      else none := by
  conv =>
    lhs
    unfold matchIterBracket

theorem matchIterSuffix_nil (p : Str) : matchIterSuffix p [] = some p := rfl

theorem matchIterSuffix_cons (p : Str) (c : Char) (d : Str) :
    matchIterSuffix p (c :: d) =
      if c == '.' && isDottedB d then some p else none := rfl

theorem matchIter_sound {s p : Str} (h : matchIter s = some p) : MatchesIter s p := by
  unfold matchIter at h
  have hsplit : s = s.takeWhile (fun c => c != '[') ++ s.dropWhile (fun c => c != '[') :=
    (List.takeWhile_append_dropWhile _ _).symm
  cases hdr : s.dropWhile (fun c => c != '[') with
  | nil => rw [hdr, matchIterBracket_nil] at h; cases h
  | cons b r1 =>
    rw [hdr] at h hsplit
    cases r1 with
    | nil => rw [matchIterBracket_one] at h; cases h
    | cons x r2 =>
      cases r2 with
      | nil => rw [matchIterBracket_two] at h; cases h
      | cons c2 t =>
        rw [matchIterBracket_long] at h
        by_cases hcond :
            (b == '[' && c2 == ']' && isIterChar x &&
              isDottedB (s.takeWhile (fun c => c != '['))) = true
        · rw [if_pos hcond] at h
          simp only [Bool.and_eq_true] at hcond
          obtain ⟨⟨⟨hb, hc2⟩, hx⟩, hp0⟩ := hcond
          have hbe : b = '[' := eq_of_beq hb
          have hce : c2 = ']' := eq_of_beq hc2
          subst hbe; subst hce
          cases t with
          | nil =>
            rw [matchIterSuffix_nil] at h
            injection h with h
            subst h
            exact ⟨isDottedB_path hp0, x, [], hx, hsplit, Or.inl rfl⟩
          | cons c3 d =>
            rw [matchIterSuffix_cons] at h
            by_cases hcond2 : (c3 == '.' && isDottedB d) = true
            · rw [if_pos hcond2] at h
              simp only [Bool.and_eq_true] at hcond2
              obtain ⟨hc3, hd⟩ := hcond2
              have hc3e : c3 = '.' := eq_of_beq hc3
              subst hc3e
              injection h with h
              subst h
              exact ⟨isDottedB_path hp0, x, '.' :: d, hx, hsplit,
                Or.inr ⟨d, rfl, isDottedB_path hd⟩⟩
            · rw [if_neg hcond2] at h; cases h
        · rw [if_neg hcond] at h; cases h

theorem matchIter_complete {s p : Str} (h : MatchesIter s p) : matchIter s = some p := by
  obtain ⟨hp, x, t, hx, hs, hsuf⟩ := h
  subst hs
  obtain ⟨ht, hd⟩ := takeWhile_append_eq (fun c => c != '[') p '[' (x :: ']' :: t)
    (path_not_lbracket hp) (by decide)
  unfold matchIter
  rw [ht, hd, matchIterBracket_long]
  rw [if_pos (by simp [hx, path_isDottedB hp])]
  rcases hsuf with rfl | ⟨d, rfl, hdp⟩
  · exact matchIterSuffix_nil p
  · rw [matchIterSuffix_cons, if_pos (by simp [path_isDottedB hdp])]

theorem mkFirstField_field (qid : Yaml) (s : Str) : (mkFirstField qid s).field = s := by
  unfold mkFirstField
  cases matchIter s <;> rfl

theorem mkFirstField_matched (qid : Yaml) {s p : Str} (h : MatchesIter s p) :
    (mkFirstField qid s).is_list = true ∧
      (mkFirstField qid s).list_name = some p ∧
      (mkFirstField qid s).suggestion = p ++ chars ".gather()" := by
  unfold mkFirstField
  rw [matchIter_complete h]
  exact ⟨rfl, rfl, rfl⟩

theorem mkFirstField_unmatched (qid : Yaml) {s : Str} (h : ∀ p, ¬ MatchesIter s p) :
    (mkFirstField qid s).is_list = false ∧
      (mkFirstField qid s).list_name = none ∧
      (mkFirstField qid s).suggestion = s := by
  unfold mkFirstField
  cases hm : matchIter s with
  | none => exact ⟨rfl, rfl, rfl⟩
  | some p => exact absurd (matchIter_sound hm) (h p)

theorem mem_specFirstFields {blocks : List Yaml} {e : FirstField}
    (h : e ∈ specFirstFields blocks) : ∃ qid s, e = mkFirstField qid s := by
  unfold specFirstFields at h
  obtain ⟨b, _, he⟩ := List.mem_filterMap.mp h
  repeat first
  | exact ⟨_, _, rfl⟩
  | (cases he)
  | (split at he)

theorem firstFieldsGo_spec :
    ∀ (blocks : List Yaml) (res : List FirstField),
      firstFieldsGo blocks = .ok res → res = specFirstFields blocks := by
  intro blocks
  induction blocks with
  | nil =>
    intro res h
    injection h with h
    subst h
    rfl
  | cons b rest ih =>
    intro res h
    cases b with
    | ydict kvs =>
      simp only [firstFieldsGo, pyContains] at h
      simp only [specFirstFields, List.filterMap_cons]
      cases hc : kvs.any (fun kv => isStrKey kv.1 (chars "fields")) with
      | false =>
        simp only [hc, Bool.not_false, if_pos rfl] at h
        rw [any_key_eq_isSome] at hc
        cases hf : dictFind kvs (chars "fields") with
        | some fv => rw [hf] at hc; cases hc
        | none =>
          exact ih res h
      | true =>
        simp only [hc, Bool.not_true, Bool.false_eq_true, if_false, pySubscript] at h
        rw [any_key_eq_isSome] at hc
        cases hf : dictFind kvs (chars "fields") with
        | none => rw [hf] at hc; cases hc
        | some fv =>
          simp only [hf] at h
          cases fv with
          | ylist fields =>
            cases fields with
            | nil => exact ih res h
            | cons f fs =>
              simp only [pyGet] at h
              cases f with
              | ydict fkvs =>
                cases fkvs with
                | nil => exact ih res h
                | cons fkv fkvs2 =>
                  cases fkv with
                  | mk fk fvv =>
                    cases fvv with
                    | ystr variable_name =>
                      simp only [bind, Except.bind] at h
                      cases hr : firstFieldsGo rest with
                      | error e => rw [hr] at h; cases h
                      | ok r =>
                        rw [hr] at h
                        injection h with h
                        subst h
                        rw [ih r hr]
                        rfl
                    | ynull => exact ih res h
                    | ybool v => exact ih res h
                    | yint v => exact ih res h
                    | yfloat v => exact ih res h
                    | ylist v => exact ih res h
                    | ydict v => exact ih res h
                    | yother => exact ih res h
              | ynull => exact ih res h
              | ybool v => exact ih res h
              | yint v => exact ih res h
              | yfloat v => exact ih res h
              | ystr v => exact ih res h
              | ylist v => exact ih res h
              | yother => exact ih res h
          | ynull => exact ih res h
          | ybool v => exact ih res h
          | yint v => exact ih res h
          | yfloat v => exact ih res h
          | ystr v => exact ih res h
          | ydict v => exact ih res h
          | yother => exact ih res h
    | ynull =>
      simp only [firstFieldsGo, pyContains] at h
      cases h
    | ybool v =>
      simp only [firstFieldsGo, pyContains] at h
      cases h
    | yint v =>
      simp only [firstFieldsGo, pyContains] at h
      cases h
    | yfloat v =>
      simp only [firstFieldsGo, pyContains] at h
      cases h
    | yother =>
      simp only [firstFieldsGo, pyContains] at h
      cases h
    | ystr sv =>
      simp only [firstFieldsGo, pyContains] at h
      by_cases hs : isSubstr (chars "fields") sv = true
      · simp only [hs, Bool.not_true, Bool.false_eq_true, if_false, pySubscript] at h
        cases h
      · simp only [Bool.not_eq_true] at hs
        simp only [hs, Bool.not_false, if_pos rfl] at h
        simp only [specFirstFields, List.filterMap_cons]
        exact ih res h
    | ylist xs =>
      simp only [firstFieldsGo, pyContains] at h
      by_cases hs : xs.any (fun x => isStrKey x (chars "fields")) = true
      · simp only [hs, Bool.not_true, Bool.false_eq_true, if_false, pySubscript] at h
        cases h
      · simp only [Bool.not_eq_true] at hs
        simp only [hs, Bool.not_false, if_pos rfl] at h
        simp only [specFirstFields, List.filterMap_cons]
        exact ih res h

/-- C9: whenever `extract_first_fields` succeeds, its result holds one
suggestion per block whose `fields` value is a non-empty sequence starting
with a non-empty mapping with a string first-key value, and for each
suggestion: if the variable name matches the iterator pattern (dotted path,
`[` one of `i j k n` `]`, optional `.`-dotted-path suffix) then `is_list` is
true, `list_name` is the portion before the bracket, and `suggestion` is
`list_name ++ ".gather()"`; otherwise `is_list` is false, `list_name` is
none, and `suggestion` is the variable name unchanged. -/
theorem c9_first_fields (parse : Str → Except Str Yaml) (document : Str)
    (res : List FirstField)
    (h : extract_first_fields parse document = .ok res) :
    res = specFirstFields (iter_blocks parse document) ∧
    ∀ e ∈ res,
      (∀ p, MatchesIter e.field p →
        e.is_list = true ∧ e.list_name = some p ∧
          e.suggestion = p ++ chars ".gather()") ∧
      ((∀ p, ¬ MatchesIter e.field p) →
        e.is_list = false ∧ e.list_name = none ∧ e.suggestion = e.field) := by
  have hspec : res = specFirstFields (iter_blocks parse document) :=
    firstFieldsGo_spec (iter_blocks parse document) res h
  refine ⟨hspec, ?_⟩
  intro e he
  obtain ⟨qid, sname, hqs⟩ := mem_specFirstFields (hspec ▸ he)
  subst hqs
  rw [mkFirstField_field]
  constructor
  · intro p hp
    exact mkFirstField_matched qid hp
  · intro hnp
    exact mkFirstField_unmatched qid hnp

theorem c9_first_fields_witness :
    extract_first_fields parseFix docFieldsBoth = .ok resFieldsBoth ∧
    (resFieldsBoth = specFirstFields (iter_blocks parseFix docFieldsBoth) ∧
     ∀ e ∈ resFieldsBoth,
       (∀ p, MatchesIter e.field p →
         e.is_list = true ∧ e.list_name = some p ∧
           e.suggestion = p ++ chars ".gather()") ∧
       ((∀ p, ¬ MatchesIter e.field p) →
         e.is_list = false ∧ e.list_name = none ∧ e.suggestion = e.field)) :=
  ⟨rfl, c9_first_fields parseFix docFieldsBoth resFieldsBoth rfl⟩

theorem splitCore_nil_eq (buf : List Str) :
    splitCore [] buf =
      if (pyStrip (List.intercalate ['\n'] buf)).isEmpty then []
      else [pyStrip (List.intercalate ['\n'] buf)] := rfl

theorem splitCore_cons_sep (l : Str) (rest buf : List Str)
    (h : (pyStrip l == chars "---") = true) :
    splitCore (l :: rest) buf =
      if (pyStrip (List.intercalate ['\n'] buf)).isEmpty then splitCore rest []
      else pyStrip (List.intercalate ['\n'] buf) :: splitCore rest [] := by
  conv =>
    lhs
    unfold splitCore
  simp [h]

theorem splitCore_cons_other (l : Str) (rest buf : List Str)
    (h : (pyStrip l == chars "---") = false) :
    splitCore (l :: rest) buf = splitCore rest (buf ++ [l]) := by
  conv =>
    lhs
    unfold splitCore
  simp [h]

theorem splitCore_append_sep {l0 : Str} (hl0 : pyStrip l0 = chars "---") :
    ∀ (ls1 buf ls2 : List Str),
      splitCore (ls1 ++ l0 :: ls2) buf = splitCore (ls1 ++ [l0]) buf ++ splitCore ls2 [] := by
  have hc : (pyStrip l0 == chars "---") = true := by rw [hl0]; exact beq_self_eq_true _
  intro ls1
  induction ls1 with
  | nil =>
    intro buf ls2
    simp only [List.nil_append]
    rw [splitCore_cons_sep l0 ls2 buf hc, splitCore_cons_sep l0 [] buf hc]
    have h0 : pyStrip (List.intercalate ['\n'] ([] : List Str)) = [] := rfl
    by_cases hp : (pyStrip (List.intercalate ['\n'] buf)).isEmpty = true <;>
      simp [hp, splitCore_nil_eq, h0]
  | cons l ls1' ih =>
    intro buf ls2
    simp only [List.cons_append]
    by_cases h2 : (pyStrip l == chars "---") = true
    · rw [splitCore_cons_sep l _ buf h2, splitCore_cons_sep l _ buf h2]
      by_cases hp : (pyStrip (List.intercalate ['\n'] buf)).isEmpty = true
      · rw [if_pos hp, if_pos hp, ih]
      · rw [if_neg hp, if_neg hp, ih, List.cons_append]
    · rw [splitCore_cons_other l _ buf (by simpa using h2),
        splitCore_cons_other l _ buf (by simpa using h2)]
      exact ih (buf ++ [l]) ls2

theorem splitCore_append_sep_last {l0 : Str} (hl0 : pyStrip l0 = chars "---") :
    ∀ (ls buf : List Str), splitCore (ls ++ [l0]) buf = splitCore ls buf := by
  have hc : (pyStrip l0 == chars "---") = true := by rw [hl0]; exact beq_self_eq_true _
  intro ls
  induction ls with
  | nil =>
    intro buf
    simp only [List.nil_append]
    rw [splitCore_cons_sep l0 [] buf hc, splitCore_nil_eq]
    have h0 : pyStrip (List.intercalate ['\n'] ([] : List Str)) = [] := rfl
    by_cases hp : (pyStrip (List.intercalate ['\n'] buf)).isEmpty = true <;>
      simp [hp, splitCore_nil_eq, h0]
  | cons l ls' ih =>
    intro buf
    simp only [List.cons_append]
    by_cases h2 : (pyStrip l == chars "---") = true
    · rw [splitCore_cons_sep l _ buf h2, splitCore_cons_sep l _ buf h2]
      by_cases hp : (pyStrip (List.intercalate ['\n'] buf)).isEmpty = true
      · rw [if_pos hp, if_pos hp, ih]
      · rw [if_neg hp, if_neg hp, ih]
    · rw [splitCore_cons_other l _ buf (by simpa using h2),
        splitCore_cons_other l _ buf (by simpa using h2)]
      exact ih (buf ++ [l])

theorem dropWhile_head_false (p : Char → Bool) :
    ∀ (l : Str) (a : Char) (t : Str), l.dropWhile p = a :: t → p a = false := by
  intro l
  induction l with
  | nil => intro a t h; exact List.noConfusion h
  | cons c l2 ih =>
    intro a t h
    rw [List.dropWhile_cons] at h
    by_cases hc : p c = true
    · rw [if_pos hc] at h
      exact ih a t h
    · rw [if_neg hc] at h
      injection h with h1 _
      subst h1
      simp only [Bool.not_eq_true] at hc
      exact hc

theorem dropWhile_getLast_eq (p : Char → Bool) :
    ∀ (l : Str), l.dropWhile p ≠ [] → (l.dropWhile p).getLast? = l.getLast? := by
  intro l
  induction l with
  | nil => intro h; exact absurd rfl h
  | cons c l2 ih =>
    intro h
    rw [List.dropWhile_cons] at h ⊢
    by_cases hc : p c = true
    · rw [if_pos hc] at h ⊢
      rw [ih h]
      have hl2 : l2 ≠ [] := by
        intro he
        subst he
        exact h rfl
      cases l2 with
      | nil => exact absurd rfl hl2
      | cons d l3 => rw [List.getLast?_cons_cons]
    · rw [if_neg hc]

theorem getLast_append_right :
    ∀ (l1 l2 : Str), l2 ≠ [] → (l1 ++ l2).getLast? = l2.getLast? := by
  intro l1
  induction l1 with
  | nil => intro l2 _; rfl
  | cons c l1' ih =>
    intro l2 h2
    rw [List.cons_append]
    cases hcon : l1' ++ l2 with
    | nil => exact absurd (List.append_eq_nil.mp hcon).2 h2
    | cons d u => rw [List.getLast?_cons_cons, ← hcon, ih l2 h2]

theorem stripRight_id {s : Str} {b : Char} (h2 : s.getLast? = some b)
    (hb : pyIsWs b = false) : (s.reverse.dropWhile pyIsWs).reverse = s := by
  have hh : s.reverse.head? = some b := by rw [List.head?_reverse, h2]
  cases hr : s.reverse with
  | nil => rw [hr] at hh; exact Option.noConfusion hh
  | cons c u =>
    rw [hr] at hh
    injection hh with hh
    subst hh
    rw [List.dropWhile_cons, if_neg (by simp [hb]), ← hr, List.reverse_reverse]

theorem pyStrip_id {s : Str} {a b : Char} (h1 : s.head? = some a)
    (ha : pyIsWs a = false) (h2 : s.getLast? = some b) (hb : pyIsWs b = false) :
    pyStrip s = s := by
  unfold pyStrip
  cases s with
  | nil => exact Option.noConfusion h1
  | cons c t =>
    injection h1 with h1
    subst h1
    rw [List.dropWhile_cons, if_neg (by simp [ha])]
    exact stripRight_id h2 hb

theorem pyStrip_head_last :
    ∀ (s : Str), pyStrip s ≠ [] →
      (∃ a, (pyStrip s).head? = some a ∧ pyIsWs a = false) ∧
      (∃ b, (pyStrip s).getLast? = some b ∧ pyIsWs b = false) := by
  intro s h
  unfold pyStrip at h ⊢
  constructor
  · rw [List.head?_reverse]
    have hvne : (s.dropWhile pyIsWs).reverse.dropWhile pyIsWs ≠ [] := by
      intro he
      rw [he] at h
      exact h rfl
    rw [dropWhile_getLast_eq pyIsWs _ hvne, List.getLast?_reverse]
    cases hu : s.dropWhile pyIsWs with
    | nil =>
      rw [hu] at hvne
      exact absurd rfl hvne
    | cons d u2 =>
      exact ⟨d, rfl, dropWhile_head_false pyIsWs s d u2 hu⟩
  · rw [List.getLast?_reverse]
    cases hv : (s.dropWhile pyIsWs).reverse.dropWhile pyIsWs with
    | nil => rw [hv] at h; exact absurd rfl h
    | cons c u =>
      exact ⟨c, rfl, dropWhile_head_false pyIsWs _ c u hv⟩

theorem splitlinesGo_append_nl_aux :
    ∀ (n : Nat) (xs : Str), xs.length ≤ n → ∀ (acc ys : Str),
      splitlinesGo (xs ++ '\n' :: ys) acc =
        splitlinesGo (xs ++ ['\n']) acc ++ splitlinesGo ys [] := by
  intro n
  induction n with
  | zero =>
    intro xs hlen acc ys
    cases xs with
    | cons c t => simp at hlen
    | nil =>
      simp only [List.nil_append, splitlinesGo_nl]
      rfl
  | succ n ih =>
    intro xs hlen acc ys
    cases xs with
    | nil =>
      simp only [List.nil_append, splitlinesGo_nl]
      rfl
    | cons c xs2 =>
      have hlen2 : xs2.length ≤ n := by
        simp only [List.length_cons] at hlen
        omega
      by_cases hn : (c == '\n') = true
      · have hc : c = '\n' := eq_of_beq hn
        subst hc
        rw [List.cons_append, splitlinesGo_nl, List.cons_append, splitlinesGo_nl,
          ih xs2 hlen2 [] ys, List.cons_append]
      · by_cases hr : (c == '\r') = true
        · have hc : c = '\r' := eq_of_beq hr
          subst hc
          cases xs2 with
          | nil =>
            simp only [List.cons_append, List.nil_append, splitlinesGo_crlf,
              splitlinesGo_cr_nil, splitlinesGo_nil_eq, List.isEmpty_nil,
              if_pos rfl]
            rfl
          | cons r1 xs3 =>
            by_cases hr1 : (r1 == '\n') = true
            · have hc1 : r1 = '\n' := eq_of_beq hr1
              subst hc1
              have hlen3 : xs3.length ≤ n := by
                simp only [List.length_cons] at hlen
                omega
              rw [List.cons_append, List.cons_append, splitlinesGo_crlf,
                List.cons_append, List.cons_append, splitlinesGo_crlf,
                ih xs3 hlen3 [] ys, List.cons_append]
            · have hr1f : (r1 == '\n') = false := by simpa using hr1
              rw [List.cons_append, List.cons_append,
                splitlinesGo_cr_cons r1 _ acc hr1f,
                List.cons_append, List.cons_append,
                splitlinesGo_cr_cons r1 _ acc hr1f,
                ← List.cons_append, ← List.cons_append,
                ih (r1 :: xs3) hlen2 [] ys]
              rfl
        · have hnf : (c == '\n') = false := by simpa using hn
          have hrf : (c == '\r') = false := by simpa using hr
          rw [List.cons_append, splitlinesGo_other c _ acc hnf hrf,
            List.cons_append, splitlinesGo_other c _ acc hnf hrf,
            ih xs2 hlen2 (c :: acc) ys]

theorem splitlinesGo_append_nl (xs acc ys : Str) :
    splitlinesGo (xs ++ '\n' :: ys) acc =
      splitlinesGo (xs ++ ['\n']) acc ++ splitlinesGo ys [] :=
  splitlinesGo_append_nl_aux xs.length xs le_rfl acc ys

theorem splitlinesGo_trailing_nl_aux :
    ∀ (n : Nat) (xs : Str), xs.length ≤ n → ∀ (acc : Str) (b : Char),
      xs.getLast? = some b → (b == '\n') = false → (b == '\r') = false →
      splitlinesGo (xs ++ ['\n']) acc = splitlinesGo xs acc := by
  intro n
  induction n with
  | zero =>
    intro xs hlen acc b hbl hb1 hb2
    cases xs with
    | cons c t => simp at hlen
    | nil => exact Option.noConfusion hbl
  | succ n ih =>
    intro xs hlen acc b hbl hb1 hb2
    cases xs with
    | nil => exact Option.noConfusion hbl
    | cons c xs2 =>
      have hlen2 : xs2.length ≤ n := by
        simp only [List.length_cons] at hlen
        omega
      cases xs2 with
      | nil =>
        have hcb : c = b := by
          rw [List.getLast?_singleton] at hbl
          exact (Option.some_inj.mp hbl)
        subst hcb
        rw [List.cons_append, List.nil_append, splitlinesGo_other c _ acc hb1 hb2,
          splitlinesGo_nl, splitlinesGo_other c _ acc hb1 hb2,
          splitlinesGo_nil_eq, splitlinesGo_nil_eq]
        simp
      | cons d xs3 =>
        have hbl2 : (d :: xs3).getLast? = some b := by
          rw [List.getLast?_cons_cons] at hbl
          exact hbl
        by_cases hn : (c == '\n') = true
        · have hc : c = '\n' := eq_of_beq hn
          subst hc
          rw [List.cons_append, splitlinesGo_nl, splitlinesGo_nl,
            ih (d :: xs3) hlen2 [] b hbl2 hb1 hb2]
        · by_cases hr : (c == '\r') = true
          · have hc : c = '\r' := eq_of_beq hr
            subst hc
            by_cases hd : (d == '\n') = true
            · have hcd : d = '\n' := eq_of_beq hd
              subst hcd
              have hlen3 : xs3.length ≤ n := by
                simp only [List.length_cons] at hlen
                omega
              cases xs3 with
              | nil =>
                rw [List.getLast?_cons_cons, List.getLast?_singleton] at hbl
                have : ('\n' : Char) = b := Option.some_inj.mp hbl
                rw [← this] at hb1
                simp at hb1
              | cons e xs4 =>
                have hbl3 : (e :: xs4).getLast? = some b := by
                  rw [List.getLast?_cons_cons] at hbl2
                  exact hbl2
                rw [List.cons_append, List.cons_append, splitlinesGo_crlf,
                  splitlinesGo_crlf,
                  ih (e :: xs4) (by simp only [List.length_cons] at hlen; omega)
                    [] b hbl3 hb1 hb2]
            · have hdf : (d == '\n') = false := by simpa using hd
              rw [List.cons_append, List.cons_append,
                splitlinesGo_cr_cons d _ acc hdf,
                splitlinesGo_cr_cons d _ acc hdf,
                ← List.cons_append,
                ih (d :: xs3) hlen2 [] b hbl2 hb1 hb2]
          · have hnf : (c == '\n') = false := by simpa using hn
            have hrf : (c == '\r') = false := by simpa using hr
            rw [List.cons_append, splitlinesGo_other c _ acc hnf hrf,
              splitlinesGo_other c _ acc hnf hrf,
              ih (d :: xs3) hlen2 (c :: acc) b hbl2 hb1 hb2]

theorem splitlinesGo_trailing_nl {xs : Str} (acc : Str) {b : Char}
    (hbl : xs.getLast? = some b) (hb1 : (b == '\n') = false)
    (hb2 : (b == '\r') = false) :
    splitlinesGo (xs ++ ['\n']) acc = splitlinesGo xs acc :=
  splitlinesGo_trailing_nl_aux xs.length xs le_rfl acc b hbl hb1 hb2

theorem beq_nl_cr_false_of_not_ws {b : Char} (hb : pyIsWs b = false) :
    (b == '\n') = false ∧ (b == '\r') = false := by
  unfold pyIsWs at hb
  simp only [Bool.or_eq_false_iff] at hb
  exact ⟨hb.1.2, hb.2⟩

theorem isEmpty_false_of_head {s : Str} {a : Char} (h : s.head? = some a) :
    s.isEmpty = false := by
  cases s with
  | nil => exact Option.noConfusion h
  | cons c t => rfl

theorem split_blocks_eq_core {D C : Str} (hc : pyStrip D = C)
    (hne : C.isEmpty = false) :
    _split_blocks D = splitCore (pySplitlines C) [] := by
  show (if (pyStrip D).isEmpty then []
    else splitCore (pySplitlines (pyStrip D)) []) = _
  rw [hc, hne]
  simp

/-- C5: for pre-trimmed documents `A` and `B`, splitting the concatenation
`A + "\n---\n" + B` yields exactly the segment list of `A` followed by the
segment list of `B`. -/
theorem c5_split_concat (A B : Str) (hA : pyStrip A = A) (hB : pyStrip B = B) :
    _split_blocks (A ++ chars "\n---\n" ++ B) =
      _split_blocks A ++ _split_blocks B := by
  have hsepstrip : pyStrip (chars "---") = chars "---" := rfl
  have hsepbeq : (pyStrip (chars "---") == chars "---") = true := rfl
  by_cases hAe : A = []
  · subst hAe
    by_cases hBe : B = []
    · subst hBe
      rfl
    · obtain ⟨⟨a, hh, hha⟩, ⟨b, hlb, hbw⟩⟩ :=
        pyStrip_head_last B (by rw [hB]; exact hBe)
      rw [hB] at hh hlb
      simp only [List.nil_append]
      have hdrop : (chars "\n---\n" ++ B).dropWhile pyIsWs =
          chars "---" ++ '\n' :: B := by
        show List.dropWhile pyIsWs
          ('\n' :: ('-' :: '-' :: '-' :: '\n' :: B)) = _
        rw [List.dropWhile_cons, if_pos (by decide), List.dropWhile_cons,
          if_neg (by decide)]
        rfl
      have hlast : (chars "---" ++ '\n' :: B).getLast? = some b := by
        rw [getLast_append_right _ _ (List.cons_ne_nil _ _)]
        show (['\n'] ++ B).getLast? = some b
        rw [getLast_append_right _ _ hBe]
        exact hlb
      have hclean : pyStrip (chars "\n---\n" ++ B) =
          chars "---" ++ '\n' :: B := by
        unfold pyStrip
        rw [hdrop]
        exact stripRight_id hlast hbw
      rw [split_blocks_eq_core hclean rfl]
      have hlines : pySplitlines (chars "---" ++ '\n' :: B) =
          chars "---" :: pySplitlines B := by
        show splitlinesGo (chars "---" ++ '\n' :: B) [] = _
        rw [splitlinesGo_append_nl,
          show splitlinesGo (chars "---" ++ ['\n']) [] = [chars "---"] from rfl]
        rfl
      have hbufE : (pyStrip (List.intercalate ['\n'] ([] : List Str))).isEmpty
          = true := rfl
      rw [hlines, splitCore_cons_sep _ _ _ hsepbeq, if_pos hbufE,
        split_blocks_eq_core hB (isEmpty_false_of_head hh)]
      rfl
  · obtain ⟨⟨a, hh, hha⟩, ⟨la, hlA, hlaw⟩⟩ :=
      pyStrip_head_last A (by rw [hA]; exact hAe)
    rw [hA] at hh hlA
    obtain ⟨hb1A, hb2A⟩ := beq_nl_cr_false_of_not_ws hlaw
    by_cases hBe : B = []
    · subst hBe
      simp only [List.append_nil]
      have hdl : (A ++ chars "\n---\n").dropWhile pyIsWs =
          A ++ chars "\n---\n" := by
        cases A with
        | nil => exact Option.noConfusion hh
        | cons a0 t =>
          injection hh with hh0
          subst hh0
          rw [List.cons_append, List.dropWhile_cons, if_neg (by simp [hha])]
      have hrevdrop : ((A ++ chars "\n---\n").reverse.dropWhile pyIsWs).reverse =
          A ++ '\n' :: chars "---" := by
        rw [List.reverse_append]
        show (List.dropWhile pyIsWs
          ('\n' :: ('-' :: '-' :: '-' :: '\n' :: A.reverse))).reverse = _
        rw [List.dropWhile_cons, if_pos (by decide), List.dropWhile_cons,
          if_neg (by decide)]
        show (chars "---\n" ++ A.reverse).reverse = _
        rw [List.reverse_append, List.reverse_reverse]
        rfl
      have hclean : pyStrip (A ++ chars "\n---\n") =
          A ++ '\n' :: chars "---" := by
        unfold pyStrip
        rw [hdl]
        exact hrevdrop
      have hne2 : (A ++ '\n' :: chars "---").isEmpty = false := by
        cases A with
        | nil => exact Option.noConfusion hh
        | cons a0 t => rfl
      rw [split_blocks_eq_core hclean hne2]
      have hlines : pySplitlines (A ++ '\n' :: chars "---") =
          pySplitlines A ++ [chars "---"] := by
        show splitlinesGo (A ++ '\n' :: chars "---") [] = _
        rw [splitlinesGo_append_nl, splitlinesGo_trailing_nl [] hlA hb1A hb2A]
        rfl
      rw [hlines, splitCore_append_sep_last hsepstrip (pySplitlines A) [],
        split_blocks_eq_core hA (isEmpty_false_of_head hh),
        show _split_blocks ([] : Str) = [] from rfl, List.append_nil]
    · obtain ⟨⟨bh, hhB, hhbw⟩, ⟨b, hlb, hbw⟩⟩ :=
        pyStrip_head_last B (by rw [hB]; exact hBe)
      rw [hB] at hhB hlb
      have hhc : (A ++ chars "\n---\n" ++ B).head? = some a := by
        cases A with
        | nil => exact Option.noConfusion hh
        | cons a0 t =>
          injection hh with hh0
          subst hh0
          rfl
      have hlc : (A ++ chars "\n---\n" ++ B).getLast? = some b := by
        rw [getLast_append_right _ _ hBe]
        exact hlb
      have hclean : pyStrip (A ++ chars "\n---\n" ++ B) =
          A ++ chars "\n---\n" ++ B := pyStrip_id hhc hha hlc hbw
      rw [split_blocks_eq_core hclean (isEmpty_false_of_head hhc)]
      have hshape : A ++ chars "\n---\n" ++ B =
          A ++ '\n' :: (chars "---" ++ '\n' :: B) := by
        rw [List.append_assoc]
        rfl
      rw [hshape]
      have hlines : pySplitlines (A ++ '\n' :: (chars "---" ++ '\n' :: B)) =
          pySplitlines A ++ chars "---" :: pySplitlines B := by
        show splitlinesGo (A ++ '\n' :: (chars "---" ++ '\n' :: B)) [] = _
        rw [splitlinesGo_append_nl, splitlinesGo_trailing_nl [] hlA hb1A hb2A,
          splitlinesGo_append_nl,
          show splitlinesGo (chars "---" ++ ['\n']) [] = [chars "---"] from rfl]
        rfl
      rw [hlines,
        splitCore_append_sep hsepstrip (pySplitlines A) [] (pySplitlines B),
        splitCore_append_sep_last hsepstrip (pySplitlines A) [],
        split_blocks_eq_core hA (isEmpty_false_of_head hh),
        split_blocks_eq_core hB (isEmpty_false_of_head hhB)]

theorem c5_split_concat_witness :
    pyStrip (chars "question: Hi") = chars "question: Hi" ∧
    pyStrip (chars "code: x") = chars "code: x" ∧
    _split_blocks (chars "question: Hi" ++ chars "\n---\n" ++ chars "code: x") =
      _split_blocks (chars "question: Hi") ++ _split_blocks (chars "code: x") :=
  ⟨rfl, rfl, c5_split_concat (chars "question: Hi") (chars "code: x") rfl rfl⟩
